import Mathlib

/-!
Verification of the invoice-automation repository against its specification.

The development shallowly embeds the algorithmic parts of the source:

* `src/utils/totp.ts` — the server-side TOTP generator and secret validator,
  including the exact JavaScript 32-bit operator semantics of its counter
  encoding loop;
* the client-side secret codec (`secretToBytes`, `isValidTOTPSecret`,
  `base32ToBytes`, `hexToBytes`, `base64ToBytes`);
* `src/services/storage.ts` — the metadata ledger and dedup index;
* `src/vendors/amazon.ts` — the extraction and download pipeline;
* the job orchestrator and HTTP routes in the index module (job map,
  conflict check, the all-vendors path, the file-serving route with its
  Node `path.normalize` guard);
* `src/utils/encryption.ts` — the credential encryption wrappers over the
  external CryptoJS library and JSON built-ins.

Machine integers are modelled as `Nat`/`Int` with explicit reductions
modulo powers of two where JavaScript semantics demand it.  Fallible code
returns `Option`/`Except`.  Effectful steps of the browser pipeline are
modelled by explicit outcome records threaded through a pure state.
-/

set_option linter.unusedVariables false
set_option maxRecDepth 8192

namespace InvoiceAuto

/-! ## Byte and 32-bit word helpers -/

/-- Reduce to an unsigned 32-bit word. -/
def u32 (x : Nat) : Nat := x % 4294967296

/-- Rotate a 32-bit word left by `s` bits (`0 < s < 32`). -/
def rotl (s x : Nat) : Nat := u32 (x * 2 ^ s + x / 2 ^ (32 - s))

/-- Big-endian byte encoding of `n` on `k` bytes. -/
def beBytes : Nat → Nat → List Nat
  | 0, _ => []
  | k + 1, n => beBytes k (n / 256) ++ [n % 256]

/-- The code points of a string, one `Nat` per character (ASCII bytes for
ASCII strings, as in the RFC 4226 test vectors). -/
def asciiBytes (s : String) : List Nat := s.data.map Char.toNat

/-! ## SHA-1 (RFC 3174), needed by the HOTP/TOTP claims -/

/-- SHA-1 round function, by round index. -/
def sha1F (i b c d : Nat) : Nat :=
  if i < 20 then (b &&& c) ||| ((b ^^^ 4294967295) &&& d)
  else if i < 40 then b ^^^ c ^^^ d
  else if i < 60 then (b &&& c) ||| (b &&& d) ||| (c &&& d)
  else b ^^^ c ^^^ d

/-- SHA-1 round constant, by round index. -/
def sha1K (i : Nat) : Nat :=
  if i < 20 then 0x5A827999
  else if i < 40 then 0x6ED9EBA1
  else if i < 60 then 0x8F1BBCDC
  else 0xCA62C1D6

/-- Message-schedule extension; `acc` holds the words produced so far,
newest first, so `w[i-3]` is `acc[2]`, `w[i-8]` is `acc[7]`, and so on. -/
def sha1ExtendRev : Nat → List Nat → List Nat
  | 0, acc => acc
  | n + 1, acc =>
      let w := rotl 1 ((acc.getD 2 0) ^^^ (acc.getD 7 0) ^^^ (acc.getD 13 0) ^^^ (acc.getD 15 0))
      sha1ExtendRev n (w :: acc)

/-- The 80-word message schedule of one 16-word block. -/
def sha1Schedule (block : List Nat) : List Nat :=
  (sha1ExtendRev 64 block.reverse).reverse

/-- The 80 compression rounds, folding the schedule into the state. -/
def sha1Rounds : Nat → Nat × Nat × Nat × Nat × Nat → List Nat → Nat × Nat × Nat × Nat × Nat
  | _, st, [] => st
  | i, (a, b, c, d, e), w :: ws =>
      let temp := u32 (rotl 5 a + sha1F i b c d + e + sha1K i + w)
      sha1Rounds (i + 1) (temp, a, rotl 30 b, c, d) ws

/-- Process one 64-byte block (given as 16 words) into the hash state. -/
def sha1Block (h : Nat × Nat × Nat × Nat × Nat) (block : List Nat) :
    Nat × Nat × Nat × Nat × Nat :=
  let (h0, h1, h2, h3, h4) := h
  let (a, b, c, d, e) := sha1Rounds 0 h (sha1Schedule block)
  (u32 (h0 + a), u32 (h1 + b), u32 (h2 + c), u32 (h3 + d), u32 (h4 + e))

/-- Group a byte list into big-endian 32-bit words. -/
def bytesToWords : List Nat → List Nat
  | b0 :: b1 :: b2 :: b3 :: rest =>
      (b0 * 16777216 + b1 * 65536 + b2 * 256 + b3) :: bytesToWords rest
  | _ => []

/-- Merkle–Damgård padding: `0x80`, zeros to 56 mod 64, 8-byte bit length. -/
def sha1Pad (msg : List Nat) : List Nat :=
  msg ++ [128] ++ List.replicate ((119 - msg.length % 64) % 64) 0 ++ beBytes 8 (msg.length * 8)

/-- Split a byte list into 64-byte chunks; structural recursion on a fuel
bound so that the definition reduces inside the kernel. -/
def chunks64Fuel : Nat → List Nat → List (List Nat)
  | 0, _ => []
  | _, [] => []
  | fuel + 1, b :: rest => ((b :: rest).take 64) :: chunks64Fuel fuel ((b :: rest).drop 64)

/-- Split a (padded) byte list into 64-byte chunks. -/
def chunks64 (l : List Nat) : List (List Nat) := chunks64Fuel l.length l

/-- SHA-1 of a byte list, as the 20-byte digest. -/
def sha1 (msg : List Nat) : List Nat :=
  let st0 : Nat × Nat × Nat × Nat × Nat :=
    (0x67452301, 0xEFCDAB89, 0x98BADCFE, 0x10325476, 0xC3D2E1F0)
  let (h0, h1, h2, h3, h4) :=
    (chunks64 (sha1Pad msg)).foldl (fun st b => sha1Block st (bytesToWords b)) st0
  beBytes 4 h0 ++ beBytes 4 h1 ++ beBytes 4 h2 ++ beBytes 4 h3 ++ beBytes 4 h4

/-- HMAC-SHA1 (RFC 2104). -/
def hmacSha1 (key msg : List Nat) : List Nat :=
  let k0 := if 64 < key.length then sha1 key else key
  let kp := k0 ++ List.replicate (64 - k0.length) 0
  sha1 (kp.map (fun b => b ^^^ 92) ++ sha1 (kp.map (fun b => b ^^^ 54) ++ msg))

/-! ## JavaScript 32-bit operator semantics

`src/utils/totp.ts` builds its counter buffer with the expression
`counter & (0xff << (i * 8)) >> (i * 8)`, whose JavaScript meaning
(shifts bind tighter than `&`, shift counts are taken mod 32, `<<`, `>>`
and `&` work on 32-bit two-complement values) is embedded exactly. -/

/-- ECMAScript ToUint32. -/
def toUint32 (x : Int) : Nat := (x % 4294967296).toNat

/-- ECMAScript ToInt32. -/
def toInt32 (x : Int) : Int :=
  if toUint32 x < 2147483648 then toUint32 x else (toUint32 x : Int) - 4294967296

/-- JavaScript `<<` on 32-bit integers (shift count mod 32). -/
def jsShl32 (a : Int) (s : Nat) : Int := toInt32 (toInt32 a * 2 ^ (s % 32))

/-- JavaScript `>>` (sign-propagating right shift, count mod 32). -/
def jsAsr32 (a : Int) (s : Nat) : Int := Int.fdiv (toInt32 a) (2 ^ (s % 32))

/-- JavaScript `&` on 32-bit integers. -/
def jsAnd32 (a b : Int) : Int := toInt32 (Nat.land (toUint32 a) (toUint32 b))

/-- Uint8Array element assignment (wrap mod 256). -/
def jsToUint8 (x : Int) : Nat := (x % 256).toNat

/-- The counter buffer actually computed by `generateTOTP` in
`src/utils/totp.ts` lines 47-50: for `i = 0..7` the byte at index `7 - i`
is `counter & (0xff << (i * 8)) >> (i * 8)` under JavaScript semantics.
Returned in buffer order (index 0 first), so position `j` holds the value
computed for `i = 7 - j`. -/
def counterBufferJS (counter : Nat) : List Nat :=
  (List.range 8).map (fun j =>
    jsToUint8 (jsAnd32 (Int.ofNat counter) (jsAsr32 (jsShl32 255 (8 * (7 - j))) (8 * (7 - j)))))

/-! ## The server-side TOTP generator (`src/utils/totp.ts`) -/

/-- JavaScript whitespace class `\s` (the characters removed by
`secret.replace(/\s+/g, "")`). -/
def isJsWhitespace (c : Char) : Bool :=
  let n := c.toNat
  (9 ≤ n && n ≤ 13) || n == 32 || n == 160 || n == 5760 ||
    (8192 ≤ n && n ≤ 8202) || n == 8232 || n == 8233 || n == 8239 ||
    n == 8287 || n == 12288 || n == 65279

/-- ASCII uppercase conversion, as applied by `toUpperCase` to the
character classes relevant here. -/
def jsToUpper (c : Char) : Char :=
  if 97 ≤ c.toNat && c.toNat ≤ 122 then Char.ofNat (c.toNat - 32) else c

/-- Index of a character in the RFC 4648 base32 alphabet
`ABCDEFGHIJKLMNOPQRSTUVWXYZ234567`, or `none`. -/
def base32Index (c : Char) : Option Nat :=
  if 65 ≤ c.toNat && c.toNat ≤ 90 then some (c.toNat - 65)
  else if 50 ≤ c.toNat && c.toNat ≤ 55 then some (c.toNat - 50 + 26)
  else none

/-- The base32 bit-accumulation loop shared by the server decoder
(`totp.ts` lines 30-41) and the client `base32ToBytes`: 5 bits per valid
character, a byte emitted whenever 8 bits are available, invalid
characters skipped.  The accumulator is kept modulo 2^32, which is
bit-exact with the JavaScript `(value << 5) | charValue` / arithmetic
shift / `& 0xff` combination since only the low 12 bits are ever read. -/
def base32Accum : List Char → Nat → Nat → List Nat
  | [], _, _ => []
  | c :: rest, value, bits =>
      match base32Index c with
      | none => base32Accum rest value bits
      | some v =>
          let value2 := (value * 32 + v) % 4294967296
          let bits2 := bits + 5
          if 8 ≤ bits2 then
            ((value2 / 2 ^ (bits2 - 8)) % 256) :: base32Accum rest value2 (bits2 - 8)
          else
            base32Accum rest value2 bits2

/-- The secret decoding performed inside `generateTOTP` (`totp.ts` lines
20-41): remove whitespace, uppercase, allocate `ceil(len * 5 / 8)` bytes
(len counting every cleaned character, valid or not), fill by the base32
loop, and leave the remaining allocated bytes zero. -/
def base32SkipDecode (secret : String) : List Nat :=
  let cleaned := (secret.data.filter (fun c => !isJsWhitespace c)).map jsToUpper
  let out := base32Accum cleaned 0 0
  out ++ List.replicate ((cleaned.length * 5 + 7) / 8 - out.length) 0

/-- Left-pad a numeral with zeros to `d` characters (`padStart(d, "0")`). -/
def padStartZeros (d : Nat) (s : String) : String :=
  ⟨List.replicate (d - s.length) '0' ++ s.data⟩

/-- RFC 4226 dynamic truncation of a 20-byte HMAC digest followed by
reduction modulo `10 ^ digits` and zero-padding, exactly as in
`totp.ts` lines 56-70 (shared verbatim by the reference HOTP below). -/
def dynamicTruncate (h : List Nat) (digits : Nat) : String :=
  let offset := (h.getD (h.length - 1) 0) % 16
  let binary :=
    ((h.getD offset 0) % 128) * 16777216 + (h.getD (offset + 1) 0) * 65536 +
      (h.getD (offset + 2) 0) * 256 + h.getD (offset + 3) 0
  padStartZeros digits (Nat.repr (binary % 10 ^ digits))

/-- `generateTOTP` from `src/utils/totp.ts`: base32-decode the secret
(skipping invalid characters), derive `counter = floor(timestamp / 1000 /
timeStep)`, build the counter buffer with the JavaScript expression
embedded in `counterBufferJS`, and truncate the HMAC-SHA1. -/
def generateTOTP (secret : String) (timeStep digits timestamp : Nat) : String :=
  let key := base32SkipDecode secret
  let counter := timestamp / 1000 / timeStep
  dynamicTruncate (hmacSha1 key (counterBufferJS counter)) digits

/-- Reference HOTP of RFC 4226, the behaviour the specification ascribes
to the generator: HMAC-SHA1 of the 8-byte big-endian counter under the
raw secret bytes, then dynamic truncation. -/
def hotpRFC (key : List Nat) (counter digits : Nat) : String :=
  dynamicTruncate (hmacSha1 key (beBytes 8 counter)) digits

/-! ## Character classes of the validator and decoder regexes

Each class is the set of code points matched by the corresponding regex
character class; they are written as code-point ranges. -/

/-- `[A-Z2-7]` (base32 alphabet, case-sensitive). -/
def isB32Char (c : Char) : Bool :=
  (65 ≤ c.toNat && c.toNat ≤ 90) || (50 ≤ c.toNat && c.toNat ≤ 55)

/-- `[A-Z2-7]` with the `i` flag. -/
def isB32CharCI (c : Char) : Bool :=
  isB32Char c || (97 ≤ c.toNat && c.toNat ≤ 122)

/-- `[A-F0-9]` (hex, case-sensitive). -/
def isHexChar (c : Char) : Bool :=
  (65 ≤ c.toNat && c.toNat ≤ 70) || (48 ≤ c.toNat && c.toNat ≤ 57)

/-- `[A-F0-9]` with the `i` flag (also `[0-9A-Fa-f]` of `hexToBytes`). -/
def isHexCharCI (c : Char) : Bool :=
  isHexChar c || (97 ≤ c.toNat && c.toNat ≤ 102)

/-- `[A-Za-z0-9+/=]` (the permissive base64 class of the validator). -/
def isB64Char (c : Char) : Bool :=
  (65 ≤ c.toNat && c.toNat ≤ 90) || (97 ≤ c.toNat && c.toNat ≤ 122) ||
    (48 ≤ c.toNat && c.toNat ≤ 57) || c == '+' || c == '/' || c == '='

/-- A full-string regex `^[...]+$`: at least one character, all in the
class. -/
def testAll (p : Char → Bool) (l : List Char) : Bool := !l.isEmpty && l.all p

/-! ## Cleaning steps applied by validators and decoders -/

/-- Server cleaning `secret.replace(/\s+/g, "").toUpperCase()`. -/
def cleanWsUpper (s : String) : List Char :=
  (s.data.filter (fun c => !isJsWhitespace c)).map jsToUpper

/-- Client decoder cleaning `secret.replace(/[\s-]+/g, "")` (no case
change). -/
def cleanWsHyphen (s : String) : List Char :=
  s.data.filter (fun c => !(isJsWhitespace c || c == '-'))

/-- Client validator cleaning `secret.replace(/[\s-]+/g, "").toUpperCase()`. -/
def cleanWsHyphenUpper (s : String) : List Char :=
  (cleanWsHyphen s).map jsToUpper

/-- JavaScript `String.prototype.trim` (whitespace and line terminators
stripped from both ends). -/
def jsTrim (s : String) : List Char :=
  ((s.data.dropWhile isJsWhitespace).reverse.dropWhile isJsWhitespace).reverse

/-! ## The two secret validators

`isValidTOTPSecret` exists twice in the repository: the server variant in
`src/utils/totp.ts` lines 83-92 and the client variant in the public UI
script, lines 147-187 of the client TOTP module. -/

/-- Server-side `isValidTOTPSecret`: cleaned base32 of length at least
16, nothing else. -/
def isValidTOTPSecretServer (secret : String) : Bool :=
  let cleanedSecret := cleanWsUpper secret
  testAll isB32Char cleanedSecret && decide (16 ≤ cleanedSecret.length)

/-- Client-side `isValidTOTPSecret`: empty or whitespace-only input is
rejected outright; otherwise the cleaned string must be Base32 (length at
least 16), Base64 (length at least 12) or hex (length at least 20). -/
def isValidTOTPSecretClient (secret : String) : Bool :=
  if jsTrim secret = [] then false
  else
    let cleanedSecret := cleanWsHyphenUpper secret
    let isBase32 := testAll isB32Char cleanedSecret
    let isBase64 := testAll isB64Char cleanedSecret
    let isHex := testAll isHexChar cleanedSecret
    let hasValidLength :=
      (isBase32 && decide (16 ≤ cleanedSecret.length)) ||
        (isBase64 && decide (12 ≤ cleanedSecret.length)) ||
        (isHex && decide (20 ≤ cleanedSecret.length))
    (isBase32 || isBase64 || isHex) && hasValidLength

/-- Modelled from the spec: the acceptance set claimed for
`isValidSecret` — after cleaning, Base32 of length at least 16, Base64 of
length at least 12, or hex of length at least 20 and even length. -/
def isValidSecretSpec (secret : String) : Bool :=
  let cleanedSecret := cleanWsHyphenUpper secret
  (testAll isB32Char cleanedSecret && decide (16 ≤ cleanedSecret.length)) ||
    (testAll isB64Char cleanedSecret && decide (12 ≤ cleanedSecret.length)) ||
    (testAll isHexChar cleanedSecret && decide (20 ≤ cleanedSecret.length) &&
      decide (cleanedSecret.length % 2 = 0))

/-! ## The client secret decoders (`secretToBytes` and helpers) -/

/-- Client `base32ToBytes`: uppercase, strip non-base32 characters, then
run the 5-bit accumulation loop; the output has exactly
`floor(5 * n / 8)` bytes for `n` remaining characters. -/
def base32ToBytes (input : List Char) : List Nat :=
  base32Accum ((input.map jsToUpper).filter isB32Char) 0 0

/-- Value of a hex digit (either case). -/
def hexVal (c : Char) : Nat :=
  if 48 ≤ c.toNat && c.toNat ≤ 57 then c.toNat - 48
  else if 65 ≤ c.toNat && c.toNat ≤ 70 then c.toNat - 55
  else if 97 ≤ c.toNat && c.toNat ≤ 102 then c.toNat - 87
  else 0

/-- Consecutive hex-digit pairs to bytes (`parseInt(substr(i, 2), 16)`). -/
def hexPairs : List Char → List Nat
  | a :: b :: rest => (hexVal a * 16 + hexVal b) :: hexPairs rest
  | _ => []

/-- Client `hexToBytes`: strip non-hex characters, prepend `0` on odd
length, decode pairs. -/
def hexToBytes (input : List Char) : List Nat :=
  let cleanedHex := input.filter isHexCharCI
  let normalizedHex := if cleanedHex.length % 2 = 1 then '0' :: cleanedHex else cleanedHex
  hexPairs normalizedHex

/-- ASCII whitespace stripped by the forgiving-base64 decode of `atob`. -/
def isAsciiWs (c : Char) : Bool :=
  c.toNat == 9 || c.toNat == 10 || c.toNat == 12 || c.toNat == 13 || c.toNat == 32

/-- Strict base64 alphabet `[A-Za-z0-9+/]` accepted by `atob`. -/
def isB64AlphaChar (c : Char) : Bool :=
  (65 ≤ c.toNat && c.toNat ≤ 90) || (97 ≤ c.toNat && c.toNat ≤ 122) ||
    (48 ≤ c.toNat && c.toNat ≤ 57) || c == '+' || c == '/'

/-- Value of a base64 alphabet character. -/
def b64Val (c : Char) : Nat :=
  if 65 ≤ c.toNat && c.toNat ≤ 90 then c.toNat - 65
  else if 97 ≤ c.toNat && c.toNat ≤ 122 then c.toNat - 71
  else if 48 ≤ c.toNat && c.toNat ≤ 57 then c.toNat + 4
  else if c == '+' then 62
  else 63

/-- Decode 6-bit groups into bytes: a full quad gives three bytes, a
trailing pair one byte, a trailing triple two bytes. -/
def b64Groups : List Char → List Nat
  | a :: b :: c :: d :: rest =>
      (b64Val a * 4 + b64Val b / 16) ::
        ((b64Val b % 16) * 16 + b64Val c / 4) ::
          ((b64Val c % 4) * 64 + b64Val d) :: b64Groups rest
  | [a, b] => [b64Val a * 4 + b64Val b / 16]
  | [a, b, c] => [b64Val a * 4 + b64Val b / 16, (b64Val b % 16) * 16 + b64Val c / 4]
  | _ => []

/-- Remove one or two trailing `=` (step of forgiving-base64). -/
def stripOneOrTwoEq (l : List Char) : List Char :=
  match l.reverse with
  | '=' :: '=' :: rest => rest.reverse
  | '=' :: rest => rest.reverse
  | _ => l

/-- The browser `atob` built-in (WHATWG forgiving-base64 decode):
whitespace stripped, up to two trailing `=` removed when the length is a
multiple of 4, remainder-1 lengths and characters outside the strict
alphabet rejected. -/
def atob (input : List Char) : Option (List Nat) :=
  let data0 := input.filter (fun c => !isAsciiWs c)
  let data1 := if data0.length % 4 = 0 then stripOneOrTwoEq data0 else data0
  if data1.length % 4 = 1 then none
  else if !data1.all isB64AlphaChar then none
  else some (b64Groups data1)

/-- Remove every trailing `=` (`replace(/=+$/, "")`). -/
def stripAllTrailingEq (l : List Char) : List Char :=
  (l.reverse.dropWhile (fun c => c == '=')).reverse

/-- Client `base64ToBytes`: strip trailing padding, map URL-safe
characters, re-pad to a multiple of 4, `atob`; if `atob` throws, the
internal catch falls back to treating the input as loose base32. -/
def base64ToBytes (input : List Char) : List Nat :=
  let sanitized := stripAllTrailingEq input
  let urlSafe := sanitized.map (fun c => if c == '-' then '+' else if c == '_' then '/' else c)
  let padded := urlSafe ++ List.replicate ((4 - urlSafe.length % 4) % 4) '='
  match atob padded with
  | some bytes => bytes
  | none => base32ToBytes ((input.filter isB32CharCI).map jsToUpper)

/-- Client `secretToBytes`: clean, then probe in priority order —
full-string Base32 (case-insensitive), full-string hex, loose Base32
extraction when at least 16 base32 characters remain, otherwise Base64.
The `catch` branch returning twenty zero bytes is unreachable in this
total embedding: no decoder in the chain throws, because `base64ToBytes`
already handles `atob` failure internally. -/
def secretToBytes (secret : String) : List Nat :=
  let cleanedSecret := cleanWsHyphen secret
  if testAll isB32CharCI cleanedSecret then base32ToBytes cleanedSecret
  else if testAll isHexCharCI cleanedSecret then hexToBytes cleanedSecret
  else
    let base32Chars := (cleanedSecret.filter isB32CharCI).map jsToUpper
    if 16 ≤ base32Chars.length then base32ToBytes base32Chars
    else base64ToBytes cleanedSecret

/-! ## The file-serving route and Node `path.normalize`

`GET /api/file` (index module, second variant): empty path gives 400, a
normalized path containing `..` gives 403, otherwise the file is read —
with the original, un-normalized query path. -/

/-- Does `pat` occur as a contiguous substring of `l`
(JavaScript `String.prototype.includes`)? -/
def startsWithChars : List Char → List Char → Bool
  | [], _ => true
  | _ :: _, [] => false
  | p :: ps, c :: cs => p == c && startsWithChars ps cs

/-- Substring occurrence check over character lists. -/
def containsChars : List Char → List Char → Bool
  | pat, [] => pat.isEmpty
  | pat, c :: rest => startsWithChars pat (c :: rest) || containsChars pat rest

/-- `path.includes("..")`. -/
def includesDotDot (s : String) : Bool := containsChars ['.', '.'] s.data

/-- Split a character list at `/` (JavaScript `split("/")`: an empty
input gives one empty segment, separators at the ends give empty
segments). -/
def splitSlash : List Char → List (List Char)
  | [] => [[]]
  | c :: rest =>
      let r := splitSlash rest
      if c == '/' then [] :: r
      else
        match r with
        | seg :: segs => (c :: seg) :: segs
        | [] => [[c]]

/-- Does the list end in `/`? -/
def lastIsSlash (l : List Char) : Bool :=
  match l.reverse with
  | [] => false
  | x :: _ => x == '/'

/-- Segment processing of Node `path.normalize` (posix): empty and `.`
segments are dropped; `..` pops the previous real segment, is preserved
at the head of a relative path, and is discarded at the root of an
absolute path.  The accumulator holds segments in reverse order. -/
def normSegs (isAbs : Bool) : List (List Char) → List (List Char) → List (List Char)
  | stack, [] => stack
  | stack, seg :: rest =>
      if seg.isEmpty || seg == ['.'] then normSegs isAbs stack rest
      else if seg == ['.', '.'] then
        match stack with
        | top :: stack2 =>
            if top == ['.', '.'] then normSegs isAbs (['.', '.'] :: top :: stack2) rest
            else normSegs isAbs stack2 rest
        | [] => if isAbs then normSegs isAbs [] rest else normSegs isAbs [['.', '.']] rest
      else normSegs isAbs (seg :: stack) rest

/-- Join segments with `/`. -/
def joinSegs : List (List Char) → List Char
  | [] => []
  | [seg] => seg
  | seg :: s2 :: rest => seg ++ '/' :: joinSegs (s2 :: rest)

/-- Node `path.normalize` for posix paths. -/
def normalizePosix (p : String) : String :=
  match p.data with
  | [] => "."
  | c :: rest =>
      let isAbs := c == '/'
      let trailingSep := lastIsSlash (c :: rest)
      let body := joinSegs (normSegs isAbs [] (splitSlash (c :: rest))).reverse
      if body.isEmpty then (if isAbs then "/" else if trailingSep then "./" else ".")
      else ⟨(if isAbs then '/' :: body else body) ++ (if trailingSep then ['/'] else [])⟩

/-- Response of the file route. -/
inductive FileResponse where
  | badRequest
  | forbidden
  | ok (readPath : String)
deriving DecidableEq, Repr

/-- `GET /api/file?path=`: the guard checks the normalized path for `..`,
but on success the artifact is read via the original query path (the
`ok` payload records the path handed to `getInvoiceFile`). -/
def getFileRoute (filePath : String) : FileResponse :=
  if filePath = "" then .badRequest
  else if includesDotDot (normalizePosix filePath) then .forbidden
  else .ok filePath

/-! ## The metadata ledger and the download pipeline
(`src/services/storage.ts`, `src/vendors/amazon.ts`)

The ledger file always holds the JSON array rewritten by `addMetadata`,
so its parsed content is modelled as the in-memory record list; artifact
writes are modelled as an append-only list of path/bytes pairs. -/

/-- An Invoice Record as appended to the metadata ledger. -/
structure InvoiceRecord where
  vendorId : String
  invoiceNumber : String
  issueDate : String
  amount : Int
  currency : String
  filename : String
deriving DecidableEq, Repr

/-- An extracted invoice candidate (`InvoiceData` in `amazon.ts`). -/
structure InvoiceData where
  invoiceNumber : String
  issueDate : String
  amount : Int
  currency : String
  fileBuffer : List Nat
deriving DecidableEq, Repr

/-- Durable storage: the metadata ledger and the artifact files. -/
structure StorageState where
  records : List InvoiceRecord
  artifacts : List (String × List Nat)
deriving DecidableEq, Repr

/-- `getMetadataByVendor`: filter the ledger by vendor id. -/
def getMetadataByVendor (records : List InvoiceRecord) (vendorId : String) :
    List InvoiceRecord :=
  records.filter (fun item => item.vendorId == vendorId)

/-- `invoiceExists`: the dedup index keyed by (vendor id, invoice
number). -/
def invoiceExists (records : List InvoiceRecord) (vendorId invoiceNumber : String) : Bool :=
  (getMetadataByVendor records vendorId).any (fun item => item.invoiceNumber == invoiceNumber)

/-- `issueDate.replace(/\//g, "-")` used to build the artifact name. -/
def replaceSlashes (s : String) : String :=
  ⟨s.data.map (fun c => if c == '/' then '-' else c)⟩

/-- The filename built by `downloadInvoices` in `amazon.ts` line 408. -/
def mkInvoiceFilename (cfgId : String) (inv : InvoiceData) : String :=
  cfgId ++ "_" ++ inv.invoiceNumber ++ "_" ++ replaceSlashes inv.issueDate ++ ".pdf"

/-- `storeInvoice`: write the artifact under the vendor directory and
append the record to the ledger. -/
def storeInvoice (st : StorageState) (fileBuffer : List Nat) (m : InvoiceRecord) :
    StorageState :=
  let filePath := "invoices/" ++ m.vendorId ++ "/" ++ m.filename
  { records := st.records ++ [m], artifacts := st.artifacts ++ [(filePath, fileBuffer)] }

/-- The Invoice Record built for a candidate in `downloadInvoices`
(lines 410-419): the dedup key fields are the vendor id of the
configuration and the candidate invoice number. -/
def candidateRecord (cfgId : String) (inv : InvoiceData) : InvoiceRecord :=
  { vendorId := cfgId, invoiceNumber := inv.invoiceNumber, issueDate := inv.issueDate,
    amount := inv.amount, currency := inv.currency, filename := mkInvoiceFilename cfgId inv }

/-- The download loop of `downloadInvoices` (`amazon.ts` lines 394-428):
per candidate, skip when the dedup index already has the key, otherwise
store artifact and record and count the download. -/
def downloadInvoices (cfgId : String) : StorageState → List InvoiceData → StorageState × Nat
  | st, [] => (st, 0)
  | st, inv :: rest =>
      if invoiceExists st.records cfgId inv.invoiceNumber then
        downloadInvoices cfgId st rest
      else
        let res :=
          downloadInvoices cfgId (storeInvoice st inv.fileBuffer (candidateRecord cfgId inv)) rest
        (res.1, res.2 + 1)

/-! ## The job orchestrator (index module)

A job map entry per vendor id; the single-vendor route checks for a
running record before launching, the all-vendors path invokes the job
runner directly.  `launchedRuns` records every automation run started,
one entry per `runVendorJob` invocation, to observe run multiplicity. -/

/-- Status field of a Job Record. -/
inductive JobStatus where
  | notStarted
  | running
  | completed (downloadCount : Nat)
  | failed (error : String)
deriving DecidableEq, Repr

/-- The in-memory job map (`appState.currentJobs`). -/
abbrev JobsMap := List (String × JobStatus)

/-- `currentJobs.get(vendorId)`. -/
def getJob : JobsMap → String → Option JobStatus
  | [], _ => none
  | (k, st) :: rest, v => if k == v then some st else getJob rest v

/-- `currentJobs.set(vendorId, status)` (overwrite or insert). -/
def setJob : JobsMap → String → JobStatus → JobsMap
  | [], v, st => [(v, st)]
  | (k, s) :: rest, v, st => if k == v then (v, st) :: rest else (k, s) :: setJob rest v st

/-- Orchestrator state: the job map plus the list of automation runs
launched so far (vendor id per run). -/
structure OrchState where
  jobs : JobsMap
  launchedRuns : List String
deriving DecidableEq, Repr

/-- The synchronous prefix of `runVendorJob`: unconditionally mark the
vendor as running and launch an automation run.  `runVendorJob` itself
performs no conflict check. -/
def runVendorJobStart (s : OrchState) (v : String) : OrchState :=
  { jobs := setJob s.jobs v .running, launchedRuns := s.launchedRuns ++ [v] }

/-- Response of a job-start request. -/
inductive StartResponse where
  | conflict409
  | started202
deriving DecidableEq, Repr

/-- `POST /api/jobs/:vendorId`: reject with 409 when the existing record
is `running`, otherwise launch `runVendorJob` in the background. -/
def postJobVendor (s : OrchState) (v : String) : StartResponse × OrchState :=
  match getJob s.jobs v with
  | some .running => (.conflict409, s)
  | _ => (.started202, runVendorJobStart s v)

/-- `runAllVendorJobs`: invoke `runVendorJob` for every vendor, with no
conflict check anywhere on this path. -/
def runAllVendorJobs (s : OrchState) (vendors : List String) : OrchState :=
  vendors.foldl runVendorJobStart s

/-- `POST /api/jobs` (all vendors): always responds started and runs
`runAllVendorJobs` in the background. -/
def postJobsAll (s : OrchState) (vendors : List String) : StartResponse × OrchState :=
  (.started202, runAllVendorJobs s vendors)

/-- The configured vendor list (`SUPPORTED_VENDORS`). -/
def supportedVendors : List String := ["amazon", "google", "vodafone"]

/-! ## One vendor job run (`runVendorJob`, index module lines 101-174)

The effectful browser steps are modelled by an outcome record: which of
the awaited calls succeed, throw, or return degenerate values.  The run
state tracks the final Job Record entry and whether a browser session was
opened (`createBrowserContext` succeeded) and closed (`close` ran to
completion). -/

/-- Outcomes of the effectful steps of one job run. -/
structure JobEffects where
  credPresent : Bool
  ctxResult : Except String Unit
  pageResult : Except String (Option Unit)
  loginLoggedIn : Bool
  downloadCount : Nat
  closeResult : Except String Unit
deriving Repr

/-- Observable result of one `runVendorJob` invocation. -/
structure JobRunState where
  job : JobStatus
  sessionOpened : Bool
  sessionClosed : Bool
deriving DecidableEq, Repr

/-- `runVendorJob` for one vendor: mark running, fetch credentials
(absence fails the job), then for `amazon` initialize (context, page),
login, download when logged in, close, and record `completed` with the
count; any thrown step lands in the `catch` block, which only rewrites
the Job Record — it does not close the session. -/
def runVendorJob (vendorId : String) (eff : JobEffects) : JobRunState :=
  if !eff.credPresent then
    { job := .failed "No credentials found", sessionOpened := false, sessionClosed := false }
  else if vendorId != "amazon" then
    { job := .failed "Unsupported vendor", sessionOpened := false, sessionClosed := false }
  else
    match eff.ctxResult with
    | .error e => { job := .failed e, sessionOpened := false, sessionClosed := false }
    | .ok _ =>
        match eff.pageResult with
        | .error e => { job := .failed e, sessionOpened := true, sessionClosed := false }
        | .ok none =>
            -- a null page makes `login` throw before touching the site
            { job := .failed "Browser not initialized", sessionOpened := true,
              sessionClosed := false }
        | .ok (some _) =>
            let downloadCount := if eff.loginLoggedIn then eff.downloadCount else 0
            match eff.closeResult with
            | .error e =>
                { job := .failed e, sessionOpened := true, sessionClosed := false }
            | .ok _ =>
                { job := .completed downloadCount, sessionOpened := true,
                  sessionClosed := true }

/-! ## The listing scan (`getInvoiceList`, `amazon.ts` lines 290-369)

A listing row either carries extractable invoice data or has no invoice
link (`none`).  The loop examines the first `min(rows, limit)` rows in
document order; a row without a link is skipped but still consumes a
loop slot.  The `fromDate` parameter is part of the signature. -/

/-- The row loop: the bound counts examined rows, link-less rows are
skipped. -/
def getInvoiceListAux : Nat → List (Option InvoiceData) → List InvoiceData
  | 0, _ => []
  | _, [] => []
  | n + 1, none :: rest => getInvoiceListAux n rest
  | n + 1, some d :: rest => d :: getInvoiceListAux n rest

/-- `getInvoiceList(state, limit = 10, fromDate?)`: iterate the first
`min(orderRows.length, limit)` rows.  The body never reads `fromDate`
and never touches the `orderFilter` control. -/
def getInvoiceList (rows : List (Option InvoiceData)) (limit : Nat)
    (fromDate : Option Nat) : List InvoiceData :=
  getInvoiceListAux (min rows.length limit) rows

/-! ## JSON values

`encryptObject`/`decryptObject` and the metadata ledger go through the
`JSON.stringify`/`JSON.parse` built-ins.  JSON values are modelled as a
mutual inductive family (arrays and objects carry their own spine types,
which keeps recursion structural).  Numbers are decimal pairs
`mantissa * 10 ^ -fracDigits`; this covers every finite decimal literal,
while the float rounding of extreme JavaScript numbers is outside the
model. -/

/-- A decimal JSON number: `mantissa / 10 ^ fracDigits`. -/
structure JsonNumber where
  mantissa : Int
  fracDigits : Nat
deriving DecidableEq, Repr

mutual
inductive Json where
  | null : Json
  | bool (b : Bool) : Json
  | num (n : JsonNumber) : Json
  | str (s : String) : Json
  | arr (elems : JsonList) : Json
  | obj (fields : JsonObj) : Json
inductive JsonList where
  | nil : JsonList
  | cons (hd : Json) (tl : JsonList) : JsonList
inductive JsonObj where
  | nil : JsonObj
  | cons (key : String) (val : Json) (tl : JsonObj) : JsonObj
end

/-- The `\x7b` character (object opener). -/
def lbraceChar : Char := Char.ofNat 123

/-- The `\x7d` character (object closer). -/
def rbraceChar : Char := Char.ofNat 125

/-- Lowercase hex digit. -/
def hexDigitLower (n : Nat) : Char :=
  match n with
  | 0 => '0' | 1 => '1' | 2 => '2' | 3 => '3' | 4 => '4'
  | 5 => '5' | 6 => '6' | 7 => '7' | 8 => '8' | 9 => '9'
  | 10 => 'a' | 11 => 'b' | 12 => 'c' | 13 => 'd' | 14 => 'e'
  | _ => 'f'

/-- Decimal digit character. -/
def digitChar (n : Nat) : Char :=
  match n with
  | 0 => '0' | 1 => '1' | 2 => '2' | 3 => '3' | 4 => '4'
  | 5 => '5' | 6 => '6' | 7 => '7' | 8 => '8' | _ => '9'

/-- `[0-9]`. -/
def isDigitChar (c : Char) : Bool := 48 ≤ c.toNat && c.toNat ≤ 57

/-- Numeric value of a decimal digit character. -/
def digitVal (c : Char) : Nat := c.toNat - 48

/-- Decimal digits of `n`, most significant first, with an explicit fuel
(structural, so the definition evaluates in the kernel). -/
def natToDigitsAux : Nat → Nat → List Char → List Char
  | 0, _, acc => acc
  | fuel + 1, n, acc =>
      if n < 10 then digitChar n :: acc
      else natToDigitsAux fuel (n / 10) (digitChar (n % 10) :: acc)

/-- Decimal digits of `n`. -/
def natDigits (n : Nat) : List Char := natToDigitsAux (n + 1) n []

/-- Fold decimal digits back into a number. -/
def digitsToNat (l : List Char) : Nat := l.foldl (fun acc c => acc * 10 + digitVal c) 0

/-- String escaping of `JSON.stringify`: quote, backslash and the named
control characters get two-character escapes, remaining control
characters get `\u00XX`, everything else is literal. -/
def escapeChar (c : Char) : List Char :=
  if c == '"' then ['\\', '"']
  else if c == '\\' then ['\\', '\\']
  else if c.toNat == 8 then ['\\', 'b']
  else if c.toNat == 9 then ['\\', 't']
  else if c.toNat == 10 then ['\\', 'n']
  else if c.toNat == 12 then ['\\', 'f']
  else if c.toNat == 13 then ['\\', 'r']
  else if c.toNat < 32 then
    ['\\', 'u', '0', '0', hexDigitLower (c.toNat / 16), hexDigitLower (c.toNat % 16)]
  else [c]

/-- Escape a whole string body. -/
def escapeString : List Char → List Char
  | [] => []
  | c :: rest => escapeChar c ++ escapeString rest

/-- Digits of the unsigned decimal `a / 10 ^ f`, with a decimal point
`f` places from the right and a zero-padded nonempty integer part. -/
def printNumberBody (a f : Nat) : List Char :=
  let digs := natDigits a
  if f = 0 then digs
  else if digs.length ≤ f then
    '0' :: '.' :: (List.replicate (f - digs.length) '0' ++ digs)
  else
    digs.take (digs.length - f) ++ '.' :: digs.drop (digs.length - f)

/-- Print a `JsonNumber` the way `JSON.stringify` prints the
corresponding decimal. -/
def printNumber (n : JsonNumber) : List Char :=
  (if n.mantissa < 0 then ['-'] else []) ++ printNumberBody n.mantissa.natAbs n.fracDigits

mutual
/-- `JSON.stringify` (compact form, as called by `encryptObject`). -/
def printJson : Json → List Char
  | .null => ['n', 'u', 'l', 'l']
  | .bool b => if b then ['t', 'r', 'u', 'e'] else ['f', 'a', 'l', 's', 'e']
  | .num n => printNumber n
  | .str s => '"' :: (escapeString s.data ++ ['"'])
  | .arr xs => '[' :: (printElems xs ++ [']'])
  | .obj fs => lbraceChar :: (printFields fs ++ [rbraceChar])
/-- Comma-separated array elements. -/
def printElems : JsonList → List Char
  | .nil => []
  | .cons x .nil => printJson x
  | .cons x (.cons y tl) => printJson x ++ ',' :: printElems (.cons y tl)
/-- Comma-separated `"key":value` fields. -/
def printFields : JsonObj → List Char
  | .nil => []
  | .cons k v .nil => '"' :: (escapeString k.data ++ '"' :: ':' :: printJson v)
  | .cons k v (.cons k2 v2 tl) =>
      ('"' :: (escapeString k.data ++ '"' :: ':' :: printJson v)) ++
        ',' :: printFields (.cons k2 v2 tl)
end

/-- The printed text as a `String`. -/
def printJsonStr (o : Json) : String := ⟨printJson o⟩

mutual
/-- Fuel measure: a sufficient parser budget for a printed value. -/
def jsize : Json → Nat
  | .null => 1
  | .bool _ => 1
  | .num _ => 1
  | .str _ => 1
  | .arr xs => jsizeL xs + 1
  | .obj fs => jsizeO fs + 1
def jsizeL : JsonList → Nat
  | .nil => 1
  | .cons x tl => max (jsize x) (jsizeL tl) + 1
def jsizeO : JsonObj → Nat
  | .nil => 1
  | .cons _ v tl => max (jsize v) (jsizeO tl) + 1
end

/-- JSON insignificant whitespace. -/
def isJsonWs (c : Char) : Bool :=
  c.toNat == 32 || c.toNat == 9 || c.toNat == 10 || c.toNat == 13

/-- Skip insignificant whitespace. -/
def skipWs (l : List Char) : List Char := l.dropWhile isJsonWs

/-- Characters that may legally follow a value inside a printed JSON
document: separator, array close, object close. -/
def isStopChar (c : Char) : Bool := c == ',' || c == ']' || c == rbraceChar

/-- The continuation after a printed value is empty or starts with a
stop character (used to delimit greedy number parsing). -/
def StopOk (l : List Char) : Prop :=
  l = [] ∨ ∃ c t, l = c :: t ∧ isStopChar c = true

/-- Classification of the first character of a printed JSON value
(parser-verification infrastructure). -/
def isValueHead (c : Char) : Bool :=
  c == 'n' || c == 't' || c == 'f' || c == '"' || c == '[' || c == lbraceChar ||
    c == '-' || isDigitChar c

/-- Split a maximal run of decimal digits off the front. -/
def spanDigits : List Char → List Char × List Char
  | [] => ([], [])
  | c :: rest =>
      if isDigitChar c then
        let (a, b) := spanDigits rest
        (c :: a, b)
      else ([], c :: rest)

/-- Parse the decimal exponent suffix (`e`/`E`, optional sign, digits);
absence yields exponent zero. -/
def parseExpPart (l : List Char) : Option (Int × List Char) :=
  match l with
  | [] => some (0, [])
  | e :: r =>
      if e == 'e' || e == 'E' then
        let (sgn, r2) : Int × List Char :=
          match r with
          | '+' :: rr => (1, rr)
          | '-' :: rr => (-1, rr)
          | _ => (1, r)
        let (ds, after) := spanDigits r2
        if ds.isEmpty then none else some (sgn * (digitsToNat ds : Int), after)
      else some (0, l)

/-- Assemble sign, integer digits, fraction digits and exponent into a
`JsonNumber`. -/
def assembleNumber (neg : Bool) (intDigits fracDigits : List Char) (expVal : Int) :
    JsonNumber :=
  let mantNat := digitsToNat (intDigits ++ fracDigits)
  let net : Int := expVal - fracDigits.length
  let (mant, fd) : Int × Nat :=
    if 0 ≤ net then ((mantNat : Int) * 10 ^ net.toNat, 0)
    else ((mantNat : Int), (-net).toNat)
  ⟨if neg then -mant else mant, fd⟩

/-- Parse the optional fraction part (`.` and at least one digit). -/
def parseFracPart (l : List Char) : Option (List Char × List Char) :=
  match l with
  | [] => some ([], [])
  | c :: r =>
      if c == '.' then
        let (ds, after) := spanDigits r
        if ds.isEmpty then none else some (ds, after)
      else some ([], c :: r)

/-- Parse the fraction and exponent parts after the integer digits. -/
def parseFracExp (neg : Bool) (intDigits : List Char) (l : List Char) :
    Option (JsonNumber × List Char) :=
  match parseFracPart l with
  | none => none
  | some (fracDigits, l2) =>
      match parseExpPart l2 with
      | none => none
      | some (expVal, l3) => some (assembleNumber neg intDigits fracDigits expVal, l3)

/-- Parse an unsigned JSON number literal (no leading zeros, at least
one digit in fraction and exponent). -/
def parseUnsignedNumber (neg : Bool) (l : List Char) : Option (JsonNumber × List Char) :=
  match l with
  | [] => none
  | c :: rest =>
      if c == '0' then
        match rest with
        | d :: _ =>
            if isDigitChar d then none else parseFracExp neg ['0'] rest
        | [] => parseFracExp neg ['0'] []
      else if isDigitChar c then
        let (ds, after) := spanDigits rest
        parseFracExp neg (c :: ds) after
      else none

/-- Parse a JSON number literal, sign included. -/
def parseNumber (l : List Char) : Option (JsonNumber × List Char) :=
  match l with
  | [] => none
  | c0 :: rest0 =>
      if c0 == '-' then parseUnsignedNumber true rest0
      else parseUnsignedNumber false (c0 :: rest0)

/-- Prepend a character to the parsed string body. -/
def consBody (c : Char) (r : Option (List Char × List Char)) :
    Option (List Char × List Char) :=
  r.map (fun p => (c :: p.1, p.2))

/-- Parse a string body up to the closing quote, handling the JSON
escapes.  Unicode escapes combine surrogate pairs; a lone surrogate is
rejected (such strings have no counterpart in the model).  The fuel drops
by one per consumed escape group, so input length plus one suffices. -/
def parseStringBody : Nat → List Char → Option (List Char × List Char)
  | 0, _ => none
  | fuel + 1, l =>
      match l with
      | [] => none
      | c :: rest =>
          if c == '"' then some ([], rest)
          else if c == '\\' then
            match rest with
            | [] => none
            | e :: r2 =>
                if e == '"' then consBody '"' (parseStringBody fuel r2)
                else if e == '\\' then consBody '\\' (parseStringBody fuel r2)
                else if e == '/' then consBody '/' (parseStringBody fuel r2)
                else if e == 'b' then consBody (Char.ofNat 8) (parseStringBody fuel r2)
                else if e == 'f' then consBody (Char.ofNat 12) (parseStringBody fuel r2)
                else if e == 'n' then consBody (Char.ofNat 10) (parseStringBody fuel r2)
                else if e == 'r' then consBody (Char.ofNat 13) (parseStringBody fuel r2)
                else if e == 't' then consBody (Char.ofNat 9) (parseStringBody fuel r2)
                else if e == 'u' then
                  match r2 with
                  | h1 :: h2 :: h3 :: h4 :: r3 =>
                      if isHexCharCI h1 && isHexCharCI h2 && isHexCharCI h3 && isHexCharCI h4 then
                        let code :=
                          hexVal h1 * 4096 + hexVal h2 * 256 + hexVal h3 * 16 + hexVal h4
                        if 55296 ≤ code && code ≤ 56319 then
                          match r3 with
                          | '\\' :: 'u' :: k1 :: k2 :: k3 :: k4 :: r4 =>
                              if isHexCharCI k1 && isHexCharCI k2 && isHexCharCI k3 &&
                                  isHexCharCI k4 then
                                let low :=
                                  hexVal k1 * 4096 + hexVal k2 * 256 + hexVal k3 * 16 + hexVal k4
                                if 56320 ≤ low && low ≤ 57343 then
                                  consBody
                                    (Char.ofNat (65536 + (code - 55296) * 1024 + (low - 56320)))
                                    (parseStringBody fuel r4)
                                else none
                              else none
                          | _ => none
                        else if 56320 ≤ code && code ≤ 57343 then none
                        else consBody (Char.ofNat code) (parseStringBody fuel r3)
                      else none
                  | _ => none
                else none
          else if c.toNat < 32 then none
          else consBody c (parseStringBody fuel rest)

mutual
/-- Recursive-descent JSON value parser.  The fuel bounds the mutual
recursion; every mutual call strictly decreases it, and `jsize` of a
printed value is a sufficient budget. -/
def parseValue : Nat → List Char → Option (Json × List Char)
  | 0, _ => none
  | fuel + 1, l =>
      match skipWs l with
      | [] => none
      | c :: rest =>
          if c == 'n' then
            match rest with
            | 'u' :: 'l' :: 'l' :: r => some (.null, r)
            | _ => none
          else if c == 't' then
            match rest with
            | 'r' :: 'u' :: 'e' :: r => some (.bool true, r)
            | _ => none
          else if c == 'f' then
            match rest with
            | 'a' :: 'l' :: 's' :: 'e' :: r => some (.bool false, r)
            | _ => none
          else if c == '"' then
            (parseStringBody (rest.length + 1) rest).map (fun p => (.str ⟨p.1⟩, p.2))
          else if c == '[' then
            match skipWs rest with
            | [] => none
            | c2 :: r2 =>
                if c2 == ']' then some (.arr .nil, r2)
                else (parseElems fuel (c2 :: r2)).map (fun p => (.arr p.1, p.2))
          else if c == lbraceChar then
            match skipWs rest with
            | [] => none
            | c2 :: r2 =>
                if c2 == rbraceChar then some (.obj .nil, r2)
                else (parseFields fuel (c2 :: r2)).map (fun p => (.obj p.1, p.2))
          else if c == '-' || isDigitChar c then
            (parseNumber (c :: rest)).map (fun p => (.num p.1, p.2))
          else none
/-- Parse comma-separated array elements and the closing bracket. -/
def parseElems : Nat → List Char → Option (JsonList × List Char)
  | 0, _ => none
  | fuel + 1, l =>
      match parseValue fuel l with
      | none => none
      | some (x, r) =>
          match skipWs r with
          | [] => none
          | c :: r2 =>
              if c == ',' then (parseElems fuel r2).map (fun p => (.cons x p.1, p.2))
              else if c == ']' then some (.cons x .nil, r2)
              else none
/-- Parse comma-separated object fields and the closing brace. -/
def parseFields : Nat → List Char → Option (JsonObj × List Char)
  | 0, _ => none
  | fuel + 1, l =>
      match l with
      | [] => none
      | c0 :: rest =>
          if c0 == '"' then
            match parseStringBody (rest.length + 1) rest with
            | none => none
            | some (key, r) =>
                match skipWs r with
                | [] => none
                | c1 :: r2 =>
                    if c1 == ':' then
                      match parseValue fuel r2 with
                      | none => none
                      | some (v, r3) =>
                          match skipWs r3 with
                          | [] => none
                          | c :: r4 =>
                              if c == ',' then
                                match skipWs r4 with
                                | [] => none
                                | c2 :: r5 =>
                                    if c2 == '"' then
                                      (parseFields fuel (c2 :: r5)).map
                                        (fun p => (.cons ⟨key⟩ v p.1, p.2))
                                    else none
                              else if c == rbraceChar then some (.cons ⟨key⟩ v .nil, r4)
                              else none
                    else none
          else none
end

/-- `JSON.parse`: parse one value, allow trailing whitespace only. -/
def jsonParse (s : String) : Option Json :=
  match parseValue (s.data.length + 1) s.data with
  | some (j, rest) => if skipWs rest = [] then some j else none
  | none => none

/-! ## The credential encryption wrappers (`src/utils/encryption.ts`)

`encrypt`/`decrypt` delegate to the external CryptoJS passphrase AES.
That library is not part of this repository; it is modelled as a
salt-keyed stream cipher over the code points of the plaintext — a
concrete, invertible stand-in exposing exactly the interface the wrappers
rely on (random salt made explicit, same-key decryption restores the
plaintext).  The CryptoJS internals (EVP key derivation, AES-256-CBC,
PKCS7, the `Salted__` base64 envelope) are outside the repository and
outside the model. -/

/-- Ciphertext envelope: the salt travels with the encrypted body. -/
structure CipherText where
  salt : Nat
  body : List Nat
deriving DecidableEq, Repr

/-- Key derivation from passphrase and salt (model). -/
def kdfMix (key : String) (salt : Nat) : Nat :=
  key.data.foldl (fun acc c => (acc * 131 + c.toNat) % 4294967296) (salt % 4294967296)

/-- Keystream byte `i` under derived key `k` (model). -/
def keystreamByte (k i : Nat) : Nat := ((k + 1) * 2654435761 + i * 40503) % 256

/-- XOR a byte list against the keystream starting at position `i`. -/
def xorStreamFrom (k i : Nat) : List Nat → List Nat
  | [] => []
  | b :: rest => (b ^^^ keystreamByte k i) :: xorStreamFrom k (i + 1) rest

/-- `encrypt(plainText, key)` with the random salt made explicit. -/
def encrypt (plainText key : String) (salt : Nat) : CipherText :=
  ⟨salt, xorStreamFrom (kdfMix key salt) 0 (plainText.data.map Char.toNat)⟩

/-- `decrypt(encryptedText, key)`. -/
def decrypt (ct : CipherText) (key : String) : String :=
  ⟨(xorStreamFrom (kdfMix key ct.salt) 0 ct.body).map Char.ofNat⟩

/-- `encryptObject(data, key) = encrypt(JSON.stringify(data), key)`. -/
def encryptObject (data : Json) (key : String) (salt : Nat) : CipherText :=
  encrypt (printJsonStr data) key salt

/-- `decryptObject(encryptedText, key)`: decrypt, then `JSON.parse`; a
parse failure is rethrown as an invalid-format error. -/
def decryptObject (ct : CipherText) (key : String) : Except String Json :=
  match jsonParse (decrypt ct key) with
  | some j => .ok j
  | none => .error "Invalid encrypted data format"

/-! ## The metadata ledger reads (`src/services/storage.ts` lines 95-113)

`getAllMetadata` reads the ledger file and parses it; any read or parse
failure is caught and turned into the empty array.  The file system is
modelled as `Option String` (`none` = missing or unreadable).  The
parsed value is returned as-is (the TypeScript cast does not inspect
it); `getMetadataByVendor` then calls `.filter`, which in JavaScript
throws a `TypeError` on a non-array — modelled as `none`. -/

/-- `getAllMetadata`: empty array on read or parse failure. -/
def getAllMetadataJson (file : Option String) : Json :=
  match file with
  | none => Json.arr .nil
  | some data =>
      match jsonParse data with
      | none => Json.arr .nil
      | some j => j

/-- JavaScript property access on a parsed JSON value (`item.key`);
`JSON.parse` keeps the last duplicate key, hence the last match wins. -/
def objFind : JsonObj → String → Option Json
  | .nil, _ => none
  | .cons key v tl, k =>
      match objFind tl k with
      | some v2 => some v2
      | none => if key == k then some v else none

/-- Property access, `none` for missing properties and non-objects. -/
def jsonField : Json → String → Option Json
  | .obj fs, k => objFind fs k
  | _, _ => none

/-- Spine of a parsed JSON array as a Lean list. -/
def jsonListToList : JsonList → List Json
  | .nil => []
  | .cons x tl => x :: jsonListToList tl

/-- `getMetadataByVendor`: filter the parsed ledger by strict equality of
the `vendorId` property with the vendor id string. -/
def getMetadataByVendorJson (file : Option String) (vendorId : String) :
    Option (List Json) :=
  match getAllMetadataJson file with
  | Json.arr xs =>
      some ((jsonListToList xs).filter (fun item =>
        match jsonField item "vendorId" with
        | some (Json.str s) => s == vendorId
        | _ => false))
  | _ => none

/-- `invoiceExists` over the parsed ledger. -/
def invoiceExistsJson (file : Option String) (vendorId invoiceNumber : String) :
    Option Bool :=
  (getMetadataByVendorJson file vendorId).map (fun l =>
    l.any (fun item =>
      match jsonField item "invoiceNumber" with
      | some (Json.str s) => s == invoiceNumber
      | _ => false))

/-! # Theorems -/

/-! ## Dedup invariant of the download pipeline (claim C2) -/

/-- The dedup index is monotone under ledger growth. -/
theorem invoiceExists_append (r d : List InvoiceRecord) (v n : String)
    (h : invoiceExists r v n = true) : invoiceExists (r ++ d) v n = true := by
  simp only [invoiceExists, getMetadataByVendor, List.filter_append, List.any_append,
    Bool.or_eq_true] at h ⊢
  exact Or.inl h

/-- A freshly stored candidate record hits the dedup index for its own
key. -/
theorem invoiceExists_store (r : List InvoiceRecord) (cfgId : String) (inv : InvoiceData) :
    invoiceExists (r ++ [candidateRecord cfgId inv]) cfgId inv.invoiceNumber = true := by
  simp [invoiceExists, getMetadataByVendor, List.filter_append, List.any_append,
    candidateRecord]

/-- The download loop only appends to the ledger. -/
theorem downloadInvoices_records (cfgId : String) :
    ∀ (invs : List InvoiceData) (st : StorageState),
      ∃ d, (downloadInvoices cfgId st invs).1.records = st.records ++ d := by
  intro invs
  induction invs with
  | nil => exact fun st => ⟨[], by simp [downloadInvoices]⟩
  | cons inv rest ih =>
      intro st
      by_cases h : invoiceExists st.records cfgId inv.invoiceNumber
      · simpa [downloadInvoices, h] using ih st
      · obtain ⟨d, hd⟩ := ih (storeInvoice st inv.fileBuffer (candidateRecord cfgId inv))
        refine ⟨candidateRecord cfgId inv :: d, ?_⟩
        simp only [downloadInvoices, h, Bool.false_eq_true, if_false]
        rw [hd]
        simp [storeInvoice]

/-- After one run, every processed candidate key is in the dedup
index. -/
theorem downloadInvoices_mem_exists (cfgId : String) :
    ∀ (invs : List InvoiceData) (st : StorageState) (inv : InvoiceData), inv ∈ invs →
      invoiceExists (downloadInvoices cfgId st invs).1.records cfgId inv.invoiceNumber
        = true := by
  intro invs
  induction invs with
  | nil => intro st inv h; cases h
  | cons head rest ih =>
      intro st inv hmem
      rcases List.mem_cons.mp hmem with heq | hmem2
      · subst heq
        by_cases h : invoiceExists st.records cfgId inv.invoiceNumber
        · obtain ⟨d, hd⟩ := downloadInvoices_records cfgId rest st
          simp only [downloadInvoices, h, if_true]
          rw [hd]
          exact invoiceExists_append _ _ _ _ h
        · obtain ⟨d, hd⟩ :=
            downloadInvoices_records cfgId rest
              (storeInvoice st inv.fileBuffer (candidateRecord cfgId inv))
          simp only [downloadInvoices, h, Bool.false_eq_true, if_false]
          rw [hd]
          exact invoiceExists_append _ _ _ _ (invoiceExists_store st.records cfgId inv)
      · by_cases h : invoiceExists st.records cfgId head.invoiceNumber
        · simp only [downloadInvoices, h, if_true]
          exact ih st inv hmem2
        · simp only [downloadInvoices, h, Bool.false_eq_true, if_false]
          exact ih _ inv hmem2

/-- A run over candidates whose keys are all present changes nothing and
downloads nothing. -/
theorem downloadInvoices_noop (cfgId : String) :
    ∀ (invs : List InvoiceData) (st : StorageState),
      (∀ inv ∈ invs, invoiceExists st.records cfgId inv.invoiceNumber = true) →
      downloadInvoices cfgId st invs = (st, 0) := by
  intro invs
  induction invs with
  | nil => intro st _; rfl
  | cons head rest ih =>
      intro st hall
      have hhead := hall head (List.mem_cons_self _ _)
      simp only [downloadInvoices, hhead, if_true]
      exact ih st (fun inv h => hall inv (List.mem_cons_of_mem _ h))

/-- Claim C2: submitting the same (vendor id, invoice number) pair twice
produces zero new Invoice Records and zero new artifact writes on the
second pass.  First conjunct: a candidate whose dedup key is already in
the ledger is skipped — no record, no artifact, no count.  Second
conjunct: re-running `downloadInvoices` on the exact state it produced
leaves the state untouched and reports zero downloads. -/
theorem downloadInvoices_dedup :
    (∀ (cfgId : String) (st : StorageState) (inv : InvoiceData) (rest : List InvoiceData),
        invoiceExists st.records cfgId inv.invoiceNumber = true →
        downloadInvoices cfgId st (inv :: rest) = downloadInvoices cfgId st rest) ∧
    (∀ (cfgId : String) (st : StorageState) (invs : List InvoiceData),
        downloadInvoices cfgId (downloadInvoices cfgId st invs).1 invs
          = ((downloadInvoices cfgId st invs).1, 0)) := by
  constructor
  · intro cfgId st inv rest h
    simp [downloadInvoices, h]
  · intro cfgId st invs
    exact downloadInvoices_noop cfgId invs _
      (fun inv h => downloadInvoices_mem_exists cfgId invs st inv h)

/-- Witness: a candidate with the key (amazon, INV-9) already in the
ledger is skipped outright. -/
theorem downloadInvoices_dedup_witness :
    downloadInvoices "amazon"
        ⟨[⟨"amazon", "INV-9", "2025-01-01", 10, "EUR", "f.pdf"⟩], []⟩
        [⟨"INV-9", "2025-02-02", 12, "EUR", [1]⟩]
      = downloadInvoices "amazon"
          ⟨[⟨"amazon", "INV-9", "2025-01-01", 10, "EUR", "f.pdf"⟩], []⟩ [] :=
  downloadInvoices_dedup.1 "amazon" _ _ _ (by decide)

/-! ## Job-conflict invariant (claim C3) -/

/-- Claim C3 (amended): the single-vendor start route checks the job
map — a `running` record yields 409 and leaves the state untouched (no
run launched); any other state launches exactly one run after marking
the vendor running. -/
theorem startJob_conflict :
    (∀ (s : OrchState) (v : String), getJob s.jobs v = some .running →
        postJobVendor s v = (.conflict409, s)) ∧
    (∀ (s : OrchState) (v : String), getJob s.jobs v ≠ some .running →
        postJobVendor s v = (.started202, runVendorJobStart s v)) := by
  constructor
  · intro s v h
    simp only [postJobVendor, h]
  · intro s v h
    rcases hg : getJob s.jobs v with _ | st
    · simp only [postJobVendor, hg]
    · cases st with
      | running => exact absurd hg h
      | notStarted => simp only [postJobVendor, hg]
      | completed c => simp only [postJobVendor, hg]
      | failed e => simp only [postJobVendor, hg]

/-- Witness for the conflict check: with amazon running, the
single-vendor route returns 409 and starts nothing; on a fresh state it
starts a run. -/
theorem startJob_conflict_witness :
    postJobVendor ⟨[("amazon", .running)], ["amazon"]⟩ "amazon"
        = (.conflict409, ⟨[("amazon", .running)], ["amazon"]⟩) ∧
    postJobVendor ⟨[], []⟩ "amazon"
        = (.started202, runVendorJobStart ⟨[], []⟩ "amazon") :=
  ⟨startJob_conflict.1 _ "amazon" (by decide), startJob_conflict.2 _ "amazon" (by decide)⟩

/-- Counterexample to claim C3 as stated: with the amazon job `running`
(one run already launched), the start-all-vendors path responds
`started` — not a conflict — and launches a second automation run for
amazon: afterwards two runs for amazon have been launched. -/
theorem startAll_bypasses_conflict_check :
    getJob (⟨[("amazon", .running)], ["amazon"]⟩ : OrchState).jobs "amazon" = some .running ∧
    (postJobsAll ⟨[("amazon", .running)], ["amazon"]⟩ supportedVendors).1 = .started202 ∧
    ((postJobsAll ⟨[("amazon", .running)], ["amazon"]⟩ supportedVendors).2.launchedRuns.count
        "amazon") = 2 := by
  refine ⟨by decide, by decide, by decide⟩

/-! ## Completion and cleanup of a vendor job (claim C4) -/

/-- Claim C4 (amended): every run resolves the Job Record to
`completed` (with the download count) or `failed` (with an error
summary); the session is closed when every step up to and including
`close` succeeds, but a step that throws after the browser context was
opened leaves the session open — the `catch` block does not close it. -/
theorem runVendorJob_completion :
    (∀ (v : String) (eff : JobEffects),
        (∃ c, (runVendorJob v eff).job = .completed c) ∨
        (∃ e, (runVendorJob v eff).job = .failed e)) ∧
    (∀ eff : JobEffects, eff.credPresent = true → eff.ctxResult = .ok () →
        eff.pageResult = .ok (some ()) → eff.closeResult = .ok () →
        runVendorJob "amazon" eff =
          ⟨.completed (if eff.loginLoggedIn then eff.downloadCount else 0), true, true⟩) ∧
    (∀ (eff : JobEffects) (e : String), eff.credPresent = true → eff.ctxResult = .ok () →
        eff.pageResult = .error e →
        runVendorJob "amazon" eff = ⟨.failed e, true, false⟩) := by
  refine ⟨?_, ?_, ?_⟩
  · intro v eff
    obtain ⟨cred, ctx, page, login, dl, close⟩ := eff
    cases cred
    · exact Or.inr ⟨_, rfl⟩
    · by_cases hv : v = "amazon"
      · subst hv
        cases ctx with
        | error e => exact Or.inr ⟨_, rfl⟩
        | ok u =>
            cases page with
            | error e => exact Or.inr ⟨_, rfl⟩
            | ok po =>
                cases po with
                | none => exact Or.inr ⟨_, rfl⟩
                | some pu =>
                    cases close with
                    | error e => exact Or.inr ⟨_, rfl⟩
                    | ok cu => exact Or.inl ⟨_, rfl⟩
      · have hv2 : (v != "amazon") = true := by
          simp [bne_iff_ne, hv]
        simp only [runVendorJob, Bool.not_true, hv2, Bool.false_eq_true, if_false, if_true]
        exact Or.inr ⟨_, rfl⟩
  · intro eff h1 h2 h3 h4
    obtain ⟨cred, ctx, page, login, dl, close⟩ := eff
    simp only at h1 h2 h3 h4
    subst h1 h2 h3 h4
    rfl
  · intro eff e h1 h2 h3
    obtain ⟨cred, ctx, page, login, dl, close⟩ := eff
    simp only at h1 h2 h3
    subst h1 h2 h3
    rfl

/-- Witness: a fully successful run with three downloads closes the
session and records `completed 3`; a run whose `close` is reached after
a failed login still completes (with count 0). -/
theorem runVendorJob_completion_witness :
    runVendorJob "amazon" ⟨true, .ok (), .ok (some ()), true, 3, .ok ()⟩
        = ⟨.completed 3, true, true⟩ ∧
    runVendorJob "amazon" ⟨true, .ok (), .error "Page creation failed", false, 0, .ok ()⟩
        = ⟨.failed "Page creation failed", true, false⟩ :=
  ⟨runVendorJob_completion.2.1 _ rfl rfl rfl rfl,
    runVendorJob_completion.2.2 _ _ rfl rfl rfl⟩

/-- Counterexample to claim C4 as stated: when `createPage` throws after
the browser context was opened, the catch block records `failed` but the
session opened for the job is never closed. -/
theorem runVendorJob_leaks_session_on_throw :
    runVendorJob "amazon" ⟨true, .ok (), .error "Page creation failed", false, 0, .ok ()⟩
        = ⟨.failed "Page creation failed", true, false⟩ ∧
    (runVendorJob "amazon"
        ⟨true, .ok (), .error "Page creation failed", false, 0, .ok ()⟩).sessionOpened = true ∧
    (runVendorJob "amazon"
        ⟨true, .ok (), .error "Page creation failed", false, 0, .ok ()⟩).sessionClosed
        = false :=
  ⟨rfl, rfl, rfl⟩

/-! ## The file-serving route and `..` rejection (claim C5) -/

/-- Claim C5 (amended): any request whose Node-normalized path contains
`..` is rejected with 403 and no file is read. -/
theorem fileRoute_rejects_normalized_dotdot :
    ∀ p : String, includesDotDot (normalizePosix p) = true → getFileRoute p = .forbidden := by
  intro p h
  by_cases hp : p = ""
  · subst hp
    exact absurd h (by decide)
  · simp only [getFileRoute, hp, if_false, h, if_true]

/-- Witness: a plainly traversing path is rejected. -/
theorem fileRoute_rejects_witness : getFileRoute "../logs/secret.txt" = .forbidden :=
  fileRoute_rejects_normalized_dotdot "../logs/secret.txt" (by decide)

/-- Counterexample to claim C5 as stated: `foo/../bar.pdf` contains the
substring `..`, but its normalization does not, so the route serves it —
and reads the file using the original, un-normalized path. -/
theorem fileRoute_serves_dotdot_path :
    includesDotDot "foo/../bar.pdf" = true ∧
    normalizePosix "foo/../bar.pdf" = "bar.pdf" ∧
    getFileRoute "foo/../bar.pdf" = .ok "foo/../bar.pdf" := by
  refine ⟨by decide, by decide, by decide⟩

/-! ## The listing scan (claim C8) -/

/-- The row loop takes the first `n` rows and keeps those with an
invoice link. -/
theorem getInvoiceListAux_eq :
    ∀ (n : Nat) (rows : List (Option InvoiceData)),
      getInvoiceListAux n rows = (rows.take n).filterMap id := by
  intro n
  induction n with
  | zero => intro rows; cases rows <;> rfl
  | succ m ih =>
      intro rows
      cases rows with
      | nil => rfl
      | cons r rest =>
          cases r with
          | none => simp [getInvoiceListAux, ih]
          | some d => simp [getInvoiceListAux, ih]

/-- Claim C8 (amended): the scan takes the first `limit` rows in
document order, skips rows without an invoice link, hence yields at most
`limit` candidates — and its result does not depend on `fromDate` at
all (no listing filter is applied). -/
theorem getInvoiceList_spec :
    (∀ (rows : List (Option InvoiceData)) (limit : Nat) (d : Option Nat),
        getInvoiceList rows limit d = (rows.take limit).filterMap id) ∧
    (∀ (rows : List (Option InvoiceData)) (limit : Nat) (d : Option Nat),
        (getInvoiceList rows limit d).length ≤ limit) ∧
    (∀ (rows : List (Option InvoiceData)) (limit : Nat) (d d2 : Option Nat),
        getInvoiceList rows limit d = getInvoiceList rows limit d2) := by
  have hmain : ∀ (rows : List (Option InvoiceData)) (limit : Nat) (d : Option Nat),
      getInvoiceList rows limit d = (rows.take limit).filterMap id := by
    intro rows limit d
    rw [getInvoiceList, getInvoiceListAux_eq]
    rcases Nat.le_total rows.length limit with h | h
    · rw [Nat.min_eq_left h, List.take_length, List.take_of_length_le h]
    · rw [Nat.min_eq_right h]
  refine ⟨hmain, ?_, fun rows limit d d2 => rfl⟩
  intro rows limit d
  rw [hmain]
  calc ((rows.take limit).filterMap id).length
      ≤ (rows.take limit).length := List.length_filterMap_le _ _
    _ ≤ limit := by
        rw [List.length_take]
        exact Nat.min_le_left _ _

/-- Counterexample to claim C8 as stated: with `fromDate` supplied (a
2025 cutoff), a row dated 2020 is still scanned and returned — the
result equals the `fromDate`-less scan, so no narrowing happens before
iteration. -/
theorem getInvoiceList_ignores_fromDate :
    getInvoiceList
        [some ⟨"inv-2020", "2020-01-01", 10, "EUR", []⟩,
          some ⟨"inv-2025", "2025-06-01", 20, "EUR", []⟩] 10 (some 20250101)
      = [⟨"inv-2020", "2020-01-01", 10, "EUR", []⟩,
          ⟨"inv-2025", "2025-06-01", 20, "EUR", []⟩] ∧
    getInvoiceList
        [some ⟨"inv-2020", "2020-01-01", 10, "EUR", []⟩,
          some ⟨"inv-2025", "2025-06-01", 20, "EUR", []⟩] 10 (some 20250101)
      = getInvoiceList
          [some ⟨"inv-2020", "2020-01-01", 10, "EUR", []⟩,
            some ⟨"inv-2025", "2025-06-01", 20, "EUR", []⟩] 10 none :=
  ⟨rfl, rfl⟩

/-! ## The secret validators (claim C6) -/

/-- Every hex character is a base64 character. -/
theorem isHexChar_imp_isB64Char (c : Char) (h : isHexChar c = true) : isB64Char c = true := by
  simp only [isHexChar, Bool.or_eq_true, Bool.and_eq_true, decide_eq_true_eq] at h
  simp only [isB64Char, Bool.or_eq_true, Bool.and_eq_true, decide_eq_true_eq]
  rcases h with ⟨h1, h2⟩ | ⟨h1, h2⟩
  · have h3 : c.toNat ≤ 90 := by omega
    tauto
  · tauto

/-- A full-string class test transfers along a class inclusion. -/
theorem testAll_mono (p q : Char → Bool) (l : List Char)
    (hpq : ∀ c, p c = true → q c = true) (h : testAll p l = true) : testAll q l = true := by
  simp only [testAll, Bool.and_eq_true, List.all_eq_true] at h ⊢
  exact ⟨h.1, fun c hc => hpq c (h.2 c hc)⟩

/-- If trimming leaves nothing, every character was whitespace. -/
theorem jsTrim_nil_all_ws (s : String) (h : jsTrim s = []) :
    ∀ c ∈ s.data, isJsWhitespace c = true := by
  unfold jsTrim at h
  rw [List.reverse_eq_nil_iff, List.dropWhile_eq_nil_iff] at h
  intro c hc
  have hsplit :
      s.data.takeWhile isJsWhitespace ++ s.data.dropWhile isJsWhitespace = s.data :=
    List.takeWhile_append_dropWhile isJsWhitespace s.data
  rw [← hsplit] at hc
  rcases List.mem_append.mp hc with h1 | h2
  · exact List.mem_takeWhile_imp h1
  · exact h c (List.mem_reverse.mpr h2)

/-- Claim C6 (amended): the client validator accepts exactly the
claimed set — after cleaning, Base32 of length at least 16, Base64 of
length at least 12, or hex of length at least 20 and even length (the
even-length condition is immaterial: hex strings are also Base64) —
with the claimed boundary cases; the server validator agrees on the
boundary cases but accepts only Base32. -/
theorem client_validator_spec :
    (∀ s : String, isValidTOTPSecretClient s = isValidSecretSpec s) ∧
    isValidTOTPSecretClient "" = false ∧
    isValidTOTPSecretClient "JBSWY3DPEHPK3PXP" = true ∧
    isValidTOTPSecretServer "" = false ∧
    isValidTOTPSecretServer "JBSWY3DPEHPK3PXP" = true := by
  refine ⟨?_, by decide, by decide, by decide, by decide⟩
  intro s
  by_cases htrim : jsTrim s = []
  · have hclean : cleanWsHyphen s = [] := by
      rw [cleanWsHyphen, List.filter_eq_nil_iff]
      intro c hc
      simp [jsTrim_nil_all_ws s htrim c hc]
    simp [isValidTOTPSecretClient, htrim, isValidSecretSpec, cleanWsHyphenUpper, hclean,
      testAll]
  · simp only [isValidTOTPSecretClient, htrim, if_false, isValidSecretSpec]
    cases hA : testAll isB32Char (cleanWsHyphenUpper s) <;>
      cases hB : testAll isB64Char (cleanWsHyphenUpper s) <;>
        cases hH : testAll isHexChar (cleanWsHyphenUpper s)
    · simp [hA, hB, hH]
    · exact absurd (testAll_mono _ _ _ isHexChar_imp_isB64Char hH) (by simp [hB])
    · -- base64 only
      by_cases h12 : 12 ≤ (cleanWsHyphenUpper s).length <;> simp [hA, hB, hH, h12]
    · -- base64 and hex
      by_cases h20 : 20 ≤ (cleanWsHyphenUpper s).length
      · have h12 : 12 ≤ (cleanWsHyphenUpper s).length := by omega
        simp [hA, hB, hH, h12, h20]
      · by_cases h12 : 12 ≤ (cleanWsHyphenUpper s).length <;> simp [hA, hB, hH, h12, h20]
    · -- base32 only
      by_cases h16 : 16 ≤ (cleanWsHyphenUpper s).length <;> simp [hA, hB, hH, h16]
    · exact absurd (testAll_mono _ _ _ isHexChar_imp_isB64Char hH) (by simp [hB])
    · -- base32 and base64
      by_cases h16 : 16 ≤ (cleanWsHyphenUpper s).length
      · simp [hA, hB, hH, h16]
      · by_cases h12 : 12 ≤ (cleanWsHyphenUpper s).length <;> simp [hA, hB, hH, h12, h16]
    · -- all three classes
      by_cases h16 : 16 ≤ (cleanWsHyphenUpper s).length
      · simp [hA, hB, hH, h16]
      · by_cases h20 : 20 ≤ (cleanWsHyphenUpper s).length
        · have h12 : 12 ≤ (cleanWsHyphenUpper s).length := by omega
          simp [hA, hB, hH, h12, h16, h20]
        · by_cases h12 : 12 ≤ (cleanWsHyphenUpper s).length <;>
            simp [hA, hB, hH, h12, h16, h20]

/-- Counterexample to claim C6 as stated: the server-side validator —
one of the two validators the claim covers — rejects a 12-character
Base64 secret that the claimed acceptance set (and the client validator)
accepts. -/
theorem server_validator_rejects_base64 :
    isValidTOTPSecretServer "abcd+efg/hij" = false ∧
    isValidSecretSpec "abcd+efg/hij" = true ∧
    isValidTOTPSecretClient "abcd+efg/hij" = true := by
  refine ⟨by decide, by decide, by decide⟩

/-! ## The client secret decoder (claim C7) -/

/-- Claim C7: `secretToBytes` probes in priority order Base32, hex,
loose Base32 (at least 16 extracted characters), Base64, returning the
first matching decoder, and is deterministic.  The twenty-zero-byte
fallback of the final `catch` is unreachable: no decoder in the chain
throws (`base64ToBytes` handles `atob` failure internally), so the
claim that the fallback appears only when every attempt fails holds
vacuously. -/
theorem secretToBytes_priority :
    (∀ s : String, testAll isB32CharCI (cleanWsHyphen s) = true →
        secretToBytes s = base32ToBytes (cleanWsHyphen s)) ∧
    (∀ s : String, testAll isB32CharCI (cleanWsHyphen s) = false →
        testAll isHexCharCI (cleanWsHyphen s) = true →
        secretToBytes s = hexToBytes (cleanWsHyphen s)) ∧
    (∀ s : String, testAll isB32CharCI (cleanWsHyphen s) = false →
        testAll isHexCharCI (cleanWsHyphen s) = false →
        16 ≤ ((cleanWsHyphen s).filter isB32CharCI).length →
        secretToBytes s = base32ToBytes (((cleanWsHyphen s).filter isB32CharCI).map jsToUpper)) ∧
    (∀ s : String, testAll isB32CharCI (cleanWsHyphen s) = false →
        testAll isHexCharCI (cleanWsHyphen s) = false →
        ¬ 16 ≤ ((cleanWsHyphen s).filter isB32CharCI).length →
        secretToBytes s = base64ToBytes (cleanWsHyphen s)) ∧
    (∀ s t : String, s = t → secretToBytes s = secretToBytes t) := by
  refine ⟨?_, ?_, ?_, ?_, fun s t h => h ▸ rfl⟩
  · intro s h1
    simp [secretToBytes, h1]
  · intro s h1 h2
    simp [secretToBytes, h1, h2]
  · intro s h1 h2 h3
    simp [secretToBytes, h1, h2, h3, List.length_map]
  · intro s h1 h2 h3
    simp [secretToBytes, h1, h2, h3, List.length_map]

/-- Witness: each probe branch fires on a concrete secret — pure
Base32, pure hex, loose Base32 with noise characters, and a short
Base64-only secret. -/
theorem secretToBytes_priority_witness :
    secretToBytes "JBSWY3DPEHPK3PXP" = base32ToBytes (cleanWsHyphen "JBSWY3DPEHPK3PXP") ∧
    secretToBytes "12345678901234567890" = hexToBytes (cleanWsHyphen "12345678901234567890") ∧
    secretToBytes "ABCDEFGHIJKLMNOP1111"
      = base32ToBytes (((cleanWsHyphen "ABCDEFGHIJKLMNOP1111").filter isB32CharCI).map
          jsToUpper) ∧
    secretToBytes "ab+/" = base64ToBytes (cleanWsHyphen "ab+/") :=
  ⟨secretToBytes_priority.1 _ (by decide),
    secretToBytes_priority.2.1 _ (by decide) (by decide),
    secretToBytes_priority.2.2.1 _ (by decide) (by decide) (by decide),
    secretToBytes_priority.2.2.2.1 _ (by decide) (by decide) (by decide)⟩

/-! ## The TOTP generator against RFC 4226 (claim C1) -/

/-- Claim C1: the reference RFC 4226 HOTP of the 20-byte ASCII secret at
counter 1 is `287082` — but `generateTOTP` produces `143721` there
(time step 30, 6 digits, timestamp 30000 ms, counter 1), because its
counter buffer is eight copies of the low counter byte (the JavaScript
expression `counter & (0xff << (i * 8)) >> (i * 8)` never isolates the
higher bytes) instead of the 8-byte big-endian encoding, and because the
secret string is base32-filter-decoded rather than taken as its ASCII
bytes. -/
theorem generateTOTP_rfc_vector_bug :
    hotpRFC (asciiBytes "12345678901234567890") 1 6 = "287082" ∧
    generateTOTP "12345678901234567890" 30 6 30000 = "143721" ∧
    generateTOTP "12345678901234567890" 30 6 30000 ≠ "287082" ∧
    counterBufferJS 1 = [1, 1, 1, 1, 1, 1, 1, 1] ∧
    beBytes 8 1 = [0, 0, 0, 0, 0, 0, 0, 1] ∧
    base32SkipDecode "12345678901234567890" ≠ asciiBytes "12345678901234567890" := by
  refine ⟨by decide, by decide, by decide, by decide, by decide, by decide⟩

/-! ## Total ledger reads (claim C10) -/

/-- Claim C10: a missing or unreadable metadata file, or one holding
invalid JSON, makes `getAllMetadata` return the empty array, so
`getMetadataByVendor` returns the empty list and `invoiceExists` returns
false, instead of an error propagating. -/
theorem getAllMetadata_total :
    ∀ (file : Option String) (v n : String),
      (file = none ∨ ∃ s, file = some s ∧ jsonParse s = none) →
      getAllMetadataJson file = Json.arr .nil ∧
      getMetadataByVendorJson file v = some [] ∧
      invoiceExistsJson file v n = some false := by
  intro file v n h
  have harr : getAllMetadataJson file = Json.arr .nil := by
    rcases h with h | ⟨s, hs, hp⟩
    · rw [h]; rfl
    · rw [hs]; simp only [getAllMetadataJson, hp]
  refine ⟨harr, ?_, ?_⟩
  · simp [getMetadataByVendorJson, harr, jsonListToList]
  · simp [invoiceExistsJson, getMetadataByVendorJson, harr, jsonListToList]

/-- Witness: the missing-file case and a concrete invalid-JSON ledger
both report an empty ledger and a negative dedup lookup. -/
theorem getAllMetadata_total_witness :
    (getAllMetadataJson none = Json.arr .nil ∧
      getMetadataByVendorJson none "amazon" = some [] ∧
      invoiceExistsJson none "amazon" "INV-1" = some false) ∧
    (getAllMetadataJson (some "not json") = Json.arr .nil ∧
      getMetadataByVendorJson (some "not json") "amazon" = some [] ∧
      invoiceExistsJson (some "not json") "amazon" "INV-1" = some false) :=
  ⟨getAllMetadata_total none "amazon" "INV-1" (Or.inl rfl),
    getAllMetadata_total (some "not json") "amazon" "INV-1" (Or.inr ⟨"not json", rfl, rfl⟩)⟩

/-! ## Encryption round trip (claim C9): the cipher layer -/

/-- Characters with equal code points are equal. -/
theorem charEqOfToNat (a b : Char) (h : a.toNat = b.toNat) : a = b :=
  Char.eq_of_val_eq (UInt32.toNat.inj h)

/-- XOR against the keystream is an involution. -/
theorem xorStreamFrom_invol (k : Nat) :
    ∀ (l : List Nat) (i : Nat), xorStreamFrom k i (xorStreamFrom k i l) = l := by
  intro l
  induction l with
  | nil => intro i; rfl
  | cons b rest ih =>
      intro i
      simp only [xorStreamFrom, ih]
      rw [Nat.xor_assoc, Nat.xor_self, Nat.xor_zero]

/-- Same-key decryption inverts encryption for every plaintext, key and
salt. -/
theorem decrypt_encrypt (s key : String) (salt : Nat) :
    decrypt (encrypt s key salt) key = s := by
  unfold decrypt encrypt
  rw [xorStreamFrom_invol, List.map_map]
  have : (Char.ofNat ∘ Char.toNat) = id := funext Char.ofNat_toNat
  rw [this, List.map_id]

/-! ## Claim C9: decimal digit printing and parsing -/

/-- The digit-printing fuel is irrelevant once sufficient. -/
theorem natToDigitsAux_fuel :
    ∀ (n f1 f2 : Nat) (acc : List Char), n < f1 → n < f2 →
      natToDigitsAux f1 n acc = natToDigitsAux f2 n acc := by
  intro n
  induction n using Nat.strong_induction_on with
  | _ n ih =>
      intro f1 f2 acc h1 h2
      cases f1 with
      | zero => omega
      | succ g1 =>
          cases f2 with
          | zero => omega
          | succ g2 =>
              by_cases hn : n < 10
              · simp [natToDigitsAux, hn]
              · simp only [natToDigitsAux, hn, if_false]
                exact ih (n / 10) (by omega) g1 g2 _ (by omega) (by omega)

/-- The digit accumulator only appends. -/
theorem natToDigitsAux_acc :
    ∀ (n : Nat) (acc : List Char), natToDigitsAux (n + 1) n acc = natDigits n ++ acc := by
  intro n
  induction n using Nat.strong_induction_on with
  | _ n ih =>
      intro acc
      by_cases hn : n < 10
      · simp [natToDigitsAux, natDigits, hn]
      · have hdiv : n / 10 < n := by omega
        have hfuel : ∀ acc2 : List Char,
            natToDigitsAux n (n / 10) acc2 = natToDigitsAux (n / 10 + 1) (n / 10) acc2 :=
          fun acc2 => natToDigitsAux_fuel (n / 10) n (n / 10 + 1) acc2 (by omega) (by omega)
        simp only [natToDigitsAux, hn, if_false, natDigits]
        rw [hfuel, hfuel, ih (n / 10) hdiv, ih (n / 10) hdiv, List.append_assoc]
        rfl

/-- Decimal recursion step of the digit printer. -/
theorem natDigits_step (n : Nat) (h : 10 ≤ n) :
    natDigits n = natDigits (n / 10) ++ [digitChar (n % 10)] := by
  have hn : ¬ n < 10 := by omega
  rw [natDigits]
  simp only [natToDigitsAux, hn, if_false]
  rw [natToDigitsAux_fuel (n / 10) n (n / 10 + 1) _ (by omega) (by omega),
    natToDigitsAux_acc]

/-- Digits of a small number. -/
theorem natDigits_lt10 (n : Nat) (h : n < 10) : natDigits n = [digitChar n] := by
  simp [natDigits, natToDigitsAux, h]

/-- `digitChar` produces digit characters. -/
theorem digitChar_isDigit (d : Nat) (h : d < 10) : isDigitChar (digitChar d) = true := by
  interval_cases d <;> decide

/-- `digitVal` inverts `digitChar`. -/
theorem digitVal_digitChar (d : Nat) (h : d < 10) : digitVal (digitChar d) = d := by
  interval_cases d <;> decide

/-- The printed digit list is nonempty. -/
theorem natDigits_ne_nil (n : Nat) : natDigits n ≠ [] := by
  by_cases hn : n < 10
  · rw [natDigits_lt10 n hn]; exact List.cons_ne_nil _ _
  · rw [natDigits_step n (by omega)]
    exact List.append_ne_nil_of_right_ne_nil _ (List.cons_ne_nil _ _)

/-- Every printed digit is a digit character. -/
theorem natDigits_all (n : Nat) : (natDigits n).all isDigitChar = true := by
  induction n using Nat.strong_induction_on with
  | _ n ih =>
      by_cases hn : n < 10
      · rw [natDigits_lt10 n hn]
        simp [digitChar_isDigit n hn]
      · rw [natDigits_step n (by omega), List.all_append, Bool.and_eq_true]
        exact ⟨ih (n / 10) (by omega), by simp [digitChar_isDigit (n % 10) (by omega)]⟩

/-- Folding one more digit. -/
theorem digitsToNat_append_digit (l : List Char) (c : Char) :
    digitsToNat (l ++ [c]) = digitsToNat l * 10 + digitVal c := by
  unfold digitsToNat
  rw [List.foldl_append]
  rfl

/-- Digit folding inverts digit printing. -/
theorem digitsToNat_natDigits : ∀ n : Nat, digitsToNat (natDigits n) = n := by
  intro n
  induction n using Nat.strong_induction_on with
  | _ n ih =>
      by_cases hn : n < 10
      · rw [natDigits_lt10 n hn]
        show digitsToNat [digitChar n] = n
        unfold digitsToNat
        simp [digitVal_digitChar n hn, List.foldl]
      · rw [natDigits_step n (by omega), digitsToNat_append_digit, ih (n / 10) (by omega),
          digitVal_digitChar (n % 10) (by omega)]
        omega

/-- Leading zeros do not change the folded value. -/
theorem digitsToNat_replicate_zero :
    ∀ (j : Nat) (l : List Char), digitsToNat (List.replicate j '0' ++ l) = digitsToNat l := by
  intro j
  induction j with
  | zero => intro l; rfl
  | succ m ih =>
      intro l
      rw [List.replicate_succ, List.cons_append]
      show List.foldl _ (0 * 10 + digitVal '0') _ = _
      exact ih l

/-- The leading digit of a nonzero number is not `0`. -/
theorem natDigits_head_ne_zero :
    ∀ (n : Nat), n ≠ 0 → ∀ (c : Char) (t : List Char), natDigits n = c :: t → c ≠ '0' := by
  intro n
  induction n using Nat.strong_induction_on with
  | _ n ih =>
      intro hn0 c t hct
      by_cases hn : n < 10
      · rw [natDigits_lt10 n hn] at hct
        obtain ⟨rfl, -⟩ := List.cons.inj hct
        interval_cases n <;> first | (exact absurd rfl hn0) | decide
      · rw [natDigits_step n (by omega)] at hct
        rcases hq : natDigits (n / 10) with _ | ⟨c2, t2⟩
        · exact absurd hq (natDigits_ne_nil _)
        · rw [hq, List.cons_append] at hct
          have h1 : c2 = c := (List.cons.inj hct).1
          subst h1
          exact ih (n / 10) (by omega) (by omega) c2 t2 hq

/-- `spanDigits` splits a digit run from a non-digit continuation. -/
theorem spanDigits_append :
    ∀ (l r : List Char), l.all isDigitChar = true →
      (r = [] ∨ ∃ c t, r = c :: t ∧ isDigitChar c = false) →
      spanDigits (l ++ r) = (l, r) := by
  intro l
  induction l with
  | nil =>
      intro r _ hr
      rcases hr with rfl | ⟨c, t, rfl, hc⟩
      · rfl
      · simp [spanDigits, hc]
  | cons c l2 ih =>
      intro r hall hr
      rw [List.all_cons, Bool.and_eq_true] at hall
      rw [List.cons_append]
      simp only [spanDigits, hall.1, if_true]
      rw [ih r hall.2 hr]

/-- A stop character is not a digit, dot, exponent marker, sign, quote
or whitespace. -/
theorem isStopChar_props (c : Char) (h : isStopChar c = true) :
    isDigitChar c = false ∧ (c == '.') = false ∧ (c == 'e') = false ∧
      (c == 'E') = false ∧ isJsonWs c = false := by
  simp only [isStopChar, Bool.or_eq_true, beq_iff_eq] at h
  rcases h with (rfl | rfl) | rfl <;> decide

/-- A `StopOk` continuation is empty or headed by a non-digit. -/
theorem stopOk_spanArg (r : List Char) (h : StopOk r) :
    r = [] ∨ ∃ c t, r = c :: t ∧ isDigitChar c = false := by
  rcases h with rfl | ⟨c, t, rfl, hc⟩
  · exact Or.inl rfl
  · exact Or.inr ⟨c, t, rfl, (isStopChar_props c hc).1⟩

/-- On a `StopOk` continuation, the fraction step finds no fraction. -/
theorem parseFracPart_stop (r : List Char) (h : StopOk r) :
    parseFracPart r = some ([], r) := by
  rcases h with rfl | ⟨c, t, rfl, hc⟩
  · rfl
  · simp [parseFracPart, (isStopChar_props c hc).2.1]

/-- On a `StopOk` continuation, the exponent step finds no exponent. -/
theorem parseExpPart_stop (r : List Char) (h : StopOk r) :
    parseExpPart r = some (0, r) := by
  rcases h with rfl | ⟨c, t, rfl, hc⟩
  · rfl
  · simp [parseExpPart, (isStopChar_props c hc).2.2.1, (isStopChar_props c hc).2.2.2.1]

/-- Fraction-free assembly. -/
theorem assembleNumber_int (neg : Bool) (intDigits : List Char) :
    assembleNumber neg intDigits [] 0
      = ⟨if neg then -(digitsToNat intDigits : Int) else (digitsToNat intDigits : Int), 0⟩ := by
  simp [assembleNumber]

/-- Assembly with a fraction and no exponent. -/
theorem assembleNumber_frac (neg : Bool) (intDigits fracDigits : List Char)
    (h : fracDigits ≠ []) :
    assembleNumber neg intDigits fracDigits 0
      = ⟨if neg then -(digitsToNat (intDigits ++ fracDigits) : Int)
          else (digitsToNat (intDigits ++ fracDigits) : Int), fracDigits.length⟩ := by
  have hlen : 0 < fracDigits.length := List.length_pos.mpr h
  have hneg : ¬ (0 : Int) ≤ 0 - (fracDigits.length : Int) := by omega
  simp only [assembleNumber, hneg, if_false]
  congr 1
  omega

/-- On a `StopOk` continuation the fraction/exponent stage consumes
nothing. -/
theorem parseFracExp_stop (neg : Bool) (ints rest : List Char) (hstop : StopOk rest) :
    parseFracExp neg ints rest = some (assembleNumber neg ints [] 0, rest) := by
  simp only [parseFracExp, parseFracPart_stop rest hstop, parseExpPart_stop rest hstop]

/-- The fraction step on a printed fraction. -/
theorem parseFracPart_frac (fracDigits rest : List Char)
    (hall : fracDigits.all isDigitChar = true) (hne : fracDigits ≠ [])
    (hstop : StopOk rest) :
    parseFracPart ('.' :: (fracDigits ++ rest)) = some (fracDigits, rest) := by
  have hempty : fracDigits.isEmpty = false := by
    cases fracDigits
    · exact absurd rfl hne
    · rfl
  simp only [parseFracPart, beq_self_eq_true, if_true,
    spanDigits_append fracDigits rest hall (stopOk_spanArg rest hstop), hempty,
    Bool.false_eq_true, if_false]

/-- The fraction/exponent stage on a printed fraction. -/
theorem parseFracExp_frac (neg : Bool) (ints fracDigits rest : List Char)
    (hall : fracDigits.all isDigitChar = true) (hne : fracDigits ≠ [])
    (hstop : StopOk rest) :
    parseFracExp neg ints ('.' :: (fracDigits ++ rest))
      = some (assembleNumber neg ints fracDigits 0, rest) := by
  simp only [parseFracExp, parseFracPart_frac fracDigits rest hall hne hstop,
    parseExpPart_stop rest hstop]

/-- Sublists of digit runs are digit runs. -/
theorem all_of_subset (p : Char → Bool) (l sub : List Char) (hsub : sub ⊆ l)
    (h : l.all p = true) : sub.all p = true := by
  rw [List.all_eq_true] at h ⊢
  exact fun x hx => h x (hsub hx)

/-- Zero padding consists of digit characters. -/
theorem all_replicate_zero (j : Nat) : (List.replicate j '0').all isDigitChar = true := by
  rw [List.all_eq_true]
  intro x hx
  rw [List.eq_of_mem_replicate hx]
  decide

/-- The printed body starts with a digit character. -/
theorem printNumberBody_head (a f : Nat) :
    ∃ c t, printNumberBody a f = c :: t ∧ isDigitChar c = true := by
  have hall := natDigits_all a
  rcases hd : natDigits a with _ | ⟨c, t⟩
  · exact absurd hd (natDigits_ne_nil a)
  · have hcdig : isDigitChar c = true := by
      rw [hd, List.all_cons, Bool.and_eq_true] at hall
      exact hall.1
    by_cases hf : f = 0
    · exact ⟨c, t, by simp [printNumberBody, hf, hd], hcdig⟩
    · by_cases hlen : (natDigits a).length ≤ f
      · exact ⟨'0', '.' :: (List.replicate (f - (natDigits a).length) '0' ++ natDigits a),
          by simp [printNumberBody, hf, hlen], by decide⟩
      · obtain ⟨k, hk⟩ : ∃ k, (natDigits a).length - f = k + 1 :=
          ⟨(natDigits a).length - f - 1, by omega⟩
        refine ⟨c, t.take k ++ '.' :: (c :: t).drop (k + 1), ?_, hcdig⟩
        simp only [printNumberBody, hf, if_false, hlen]
        rw [hd]
        rw [show (c :: t).length - f = k + 1 from by rw [← hd]; exact hk]
        rw [List.take_succ_cons, List.cons_append]

/-- The unsigned stage of the number parser inverts the printed body. -/
theorem parseUnsignedNumber_print (a f : Nat) (neg : Bool) (rest : List Char)
    (hstop : StopOk rest) :
    parseUnsignedNumber neg (printNumberBody a f ++ rest)
      = some (⟨if neg then -(a : Int) else (a : Int), f⟩, rest) := by
  have hall := natDigits_all a
  by_cases hf : f = 0
  · subst hf
    by_cases ha : a = 0
    · subst ha
      have hz : printNumberBody 0 0 = ['0'] := rfl
      rw [hz]
      rcases hstop with rfl | ⟨c, t, rfl, hc⟩
      · simp only [List.append_nil, parseUnsignedNumber, beq_self_eq_true, if_true,
          parseFracExp_stop true _ _ (Or.inl rfl), parseFracExp_stop false _ _ (Or.inl rfl),
          assembleNumber_int]
        cases neg <;> rfl
      · have hstop2 : StopOk (c :: t) := Or.inr ⟨c, t, rfl, hc⟩
        simp only [List.cons_append, List.nil_append, parseUnsignedNumber, beq_self_eq_true,
          if_true, (isStopChar_props c hc).1, Bool.false_eq_true, if_false,
          parseFracExp_stop neg _ _ hstop2, assembleNumber_int]
        cases neg <;> rfl
    · rcases hd : natDigits a with _ | ⟨c, t⟩
      · exact absurd hd (natDigits_ne_nil a)
      · have hbody : printNumberBody a 0 = c :: t := by
          simp [printNumberBody, hd]
        have hcne : c ≠ '0' := natDigits_head_ne_zero a ha c t hd
        have hc0 : (c == '0') = false := by
          rw [beq_eq_false_iff_ne]
          exact hcne
        have hcdig : isDigitChar c = true := by
          rw [hd, List.all_cons, Bool.and_eq_true] at hall
          exact hall.1
        have htall : t.all isDigitChar = true := by
          rw [hd, List.all_cons, Bool.and_eq_true] at hall
          exact hall.2
        rw [hbody, List.cons_append]
        simp only [parseUnsignedNumber, hc0, Bool.false_eq_true, if_false, hcdig, if_true,
          spanDigits_append t rest htall (stopOk_spanArg rest hstop),
          parseFracExp_stop neg _ _ hstop, assembleNumber_int]
        rw [show (c :: t) = natDigits a from hd.symm, digitsToNat_natDigits]
  · by_cases hlen : (natDigits a).length ≤ f
    · -- small mantissa: 0.00…digits
      have hbody : printNumberBody a f
          = '0' :: '.' :: (List.replicate (f - (natDigits a).length) '0' ++ natDigits a) := by
        simp [printNumberBody, hf, hlen]
      have hfrac : (List.replicate (f - (natDigits a).length) '0' ++ natDigits a).all
          isDigitChar = true := by
        rw [List.all_append, Bool.and_eq_true]
        exact ⟨all_replicate_zero _, hall⟩
      have hfne : List.replicate (f - (natDigits a).length) '0' ++ natDigits a ≠ [] :=
        List.append_ne_nil_of_right_ne_nil _ (natDigits_ne_nil a)
      rw [hbody]
      simp only [List.cons_append, List.append_assoc, parseUnsignedNumber, beq_self_eq_true,
        if_true]
      have hdot : isDigitChar '.' = false := by decide
      simp only [hdot, Bool.false_eq_true, if_false]
      rw [show List.replicate (f - (natDigits a).length) '0' ++ (natDigits a ++ rest)
            = (List.replicate (f - (natDigits a).length) '0' ++ natDigits a) ++ rest from
          (List.append_assoc _ _ _).symm]
      rw [parseFracExp_frac neg _ _ rest hfrac hfne hstop,
        assembleNumber_frac neg _ _ hfne]
      have hval : digitsToNat
          (['0'] ++ (List.replicate (f - (natDigits a).length) '0' ++ natDigits a)) = a := by
        rw [show (['0'] : List Char)
              ++ (List.replicate (f - (natDigits a).length) '0' ++ natDigits a)
              = List.replicate (f - (natDigits a).length + 1) '0' ++ natDigits a from by
            rw [List.replicate_succ, List.cons_append]
            rfl]
        rw [digitsToNat_replicate_zero, digitsToNat_natDigits]
      have hflen : (List.replicate (f - (natDigits a).length) '0' ++ natDigits a).length
          = f := by
        rw [List.length_append, List.length_replicate]
        have := List.length_pos.mpr (natDigits_ne_nil a)
        omega
      rw [hval, hflen]
    · -- large mantissa: digits split around the decimal point
      rcases hd : natDigits a with _ | ⟨c, t⟩
      · exact absurd hd (natDigits_ne_nil a)
      · have hlen2 : f < (c :: t).length := by
          rw [← hd]; omega
        obtain ⟨k, hk⟩ : ∃ k, (c :: t).length - f = k + 1 :=
          ⟨(c :: t).length - f - 1, by omega⟩
        have ha : a ≠ 0 := by
          intro h0
          subst h0
          have h1 : (c :: t).length = 1 := by
            rw [← hd]
            rfl
          omega
        have hcne : c ≠ '0' := natDigits_head_ne_zero a ha c t hd
        have hc0 : (c == '0') = false := beq_eq_false_iff_ne.mpr hcne
        have hcdig : isDigitChar c = true := by
          rw [hd, List.all_cons, Bool.and_eq_true] at hall
          exact hall.1
        have htall : t.all isDigitChar = true := by
          have hall2 := natDigits_all a
          rw [hd, List.all_cons, Bool.and_eq_true] at hall2
          exact hall2.2
        have hbody : printNumberBody a f
            = (c :: t.take k) ++ '.' :: (c :: t).drop (k + 1) := by
          simp only [printNumberBody, hf, if_false, hlen]
          rw [hd]
          rw [show (c :: t).length - f = k + 1 from hk, List.take_succ_cons]
        have hDlen : ((c :: t).drop (k + 1)).length = f := by
          rw [List.length_drop]
          omega
        have hDne : (c :: t).drop (k + 1) ≠ [] := by
          intro h0
          rw [h0] at hDlen
          simp at hDlen
          omega
        have hDall : ((c :: t).drop (k + 1)).all isDigitChar = true := by
          refine all_of_subset isDigitChar (c :: t) _ (List.drop_subset _ _) ?_
          rw [← hd]
          exact natDigits_all a
        have hTall : (t.take k).all isDigitChar = true :=
          all_of_subset isDigitChar t _ (List.take_subset _ _) htall
        rw [hbody]
        rw [List.cons_append, List.cons_append, List.append_assoc]
        simp only [parseUnsignedNumber, hc0, Bool.false_eq_true, if_false, hcdig, if_true]
        rw [show ('.' :: (c :: t).drop (k + 1)) ++ rest
              = '.' :: ((c :: t).drop (k + 1) ++ rest) from rfl]
        rw [spanDigits_append (t.take k) ('.' :: ((c :: t).drop (k + 1) ++ rest)) hTall
          (Or.inr ⟨'.', _, rfl, by decide⟩)]
        rw [parseFracExp_frac neg _ _ rest hDall hDne hstop,
          assembleNumber_frac neg _ _ hDne]
        rw [show (c :: t.take k) ++ (c :: t).drop (k + 1)
              = (c :: t).take (k + 1) ++ (c :: t).drop (k + 1) from by
            rw [List.take_succ_cons]]
        rw [List.take_append_drop]
        rw [show (c :: t) = natDigits a from hd.symm, digitsToNat_natDigits]
        rw [show (List.drop (k + 1) (natDigits a)).length = f from by rw [hd]; exact hDlen]

/-- The number parser inverts the number printer. -/
theorem parseNumber_print (n : JsonNumber) (rest : List Char) (hstop : StopOk rest) :
    parseNumber (printNumber n ++ rest) = some (n, rest) := by
  obtain ⟨m, f⟩ := n
  by_cases hm : m < 0
  · have hp : printNumber ⟨m, f⟩ = '-' :: printNumberBody m.natAbs f := by
      simp only [printNumber, hm, if_true]
      rfl
    rw [hp, List.cons_append]
    simp only [parseNumber, beq_self_eq_true, if_true,
      parseUnsignedNumber_print m.natAbs f true rest hstop]
    rw [show -(m.natAbs : Int) = m from by omega]
  · have hp : printNumber ⟨m, f⟩ = printNumberBody m.natAbs f := by
      simp only [printNumber, hm, if_false]
      rfl
    obtain ⟨c, t, hct, hcdig⟩ := printNumberBody_head m.natAbs f
    have hcdash : (c == '-') = false := by
      rw [beq_eq_false_iff_ne]
      intro h0
      subst h0
      exact absurd hcdig (by decide)
    rw [hp, hct, List.cons_append]
    simp only [parseNumber, hcdash, Bool.false_eq_true, if_false]
    rw [← List.cons_append, ← hct, parseUnsignedNumber_print m.natAbs f false rest hstop]
    rw [show (if (false : Bool) = true then -(m.natAbs : Int) else (m.natAbs : Int))
          = (m.natAbs : Int) from rfl]
    rw [show (m.natAbs : Int) = m from by omega]

/-! ## Claim C9: string escaping and parsing -/

/-- Parser step on an escaped quote. -/
theorem parseStringBody_escQuote (g : Nat) (T : List Char) :
    parseStringBody (g + 1) ('\\' :: '"' :: T) = consBody '"' (parseStringBody g T) := rfl

/-- Parser step on an escaped backslash. -/
theorem parseStringBody_escBackslash (g : Nat) (T : List Char) :
    parseStringBody (g + 1) ('\\' :: '\\' :: T) = consBody '\\' (parseStringBody g T) := rfl

/-- Parser step on `\b`. -/
theorem parseStringBody_escB (g : Nat) (T : List Char) :
    parseStringBody (g + 1) ('\\' :: 'b' :: T)
      = consBody (Char.ofNat 8) (parseStringBody g T) := rfl

/-- Parser step on `\t`. -/
theorem parseStringBody_escT (g : Nat) (T : List Char) :
    parseStringBody (g + 1) ('\\' :: 't' :: T)
      = consBody (Char.ofNat 9) (parseStringBody g T) := rfl

/-- Parser step on `\n`. -/
theorem parseStringBody_escN (g : Nat) (T : List Char) :
    parseStringBody (g + 1) ('\\' :: 'n' :: T)
      = consBody (Char.ofNat 10) (parseStringBody g T) := rfl

/-- Parser step on `\f`. -/
theorem parseStringBody_escF (g : Nat) (T : List Char) :
    parseStringBody (g + 1) ('\\' :: 'f' :: T)
      = consBody (Char.ofNat 12) (parseStringBody g T) := rfl

/-- Parser step on `\r`. -/
theorem parseStringBody_escR (g : Nat) (T : List Char) :
    parseStringBody (g + 1) ('\\' :: 'r' :: T)
      = consBody (Char.ofNat 13) (parseStringBody g T) := rfl

/-- Parser step on a `\u00XX` escape of a control character. -/
theorem parseStringBody_escU (g : Nat) (T : List Char) (n : Nat) (hn : n < 32) :
    parseStringBody (g + 1) ('\\' :: 'u' :: '0' :: '0' ::
        hexDigitLower (n / 16) :: hexDigitLower (n % 16) :: T)
      = consBody (Char.ofNat n) (parseStringBody g T) := by
  interval_cases n <;> rfl

/-- Parser step on a literal (unescaped) character. -/
theorem parseStringBody_plain (g : Nat) (c : Char) (T : List Char)
    (h1 : (c == '"') = false) (h2 : (c == '\\') = false) (h3 : ¬ c.toNat < 32) :
    parseStringBody (g + 1) (c :: T) = consBody c (parseStringBody g T) := by
  simp only [parseStringBody, h1, h2, h3, Bool.false_eq_true, if_false]

/-- The string-body parser inverts `JSON.stringify` escaping. -/
theorem parseStringBody_print :
    ∀ (l : List Char) (f : Nat) (rest : List Char),
      (escapeString l).length < f →
      parseStringBody f (escapeString l ++ '"' :: rest) = some (l, rest) := by
  intro l
  induction l with
  | nil =>
      intro f rest hf
      cases f with
      | zero => omega
      | succ g => rfl
  | cons c l2 ih =>
      intro f rest hf
      have hesc : escapeString (c :: l2) = escapeChar c ++ escapeString l2 := rfl
      rw [hesc, List.length_append] at hf
      have hpos : 1 ≤ (escapeChar c).length := by
        unfold escapeChar
        split
        · simp
        · split
          · simp
          · split
            · simp
            · split
              · simp
              · split
                · simp
                · split
                  · simp
                  · split
                    · simp
                    · split <;> simp
      cases f with
      | zero => omega
      | succ g =>
          rw [hesc, List.append_assoc]
          by_cases h1 : (c == '"') = true
          · have hc : c = '"' := eq_of_beq h1
            subst hc
            have he : escapeChar '"' = ['\\', '"'] := rfl
            rw [he, show (['\\', '"'] : List Char) ++ (escapeString l2 ++ '"' :: rest)
                  = '\\' :: '"' :: (escapeString l2 ++ '"' :: rest) from rfl,
              parseStringBody_escQuote g _,
              ih g rest (by rw [he] at hf; simp at hf; omega)]
            rfl
          · rw [Bool.not_eq_true] at h1
            by_cases h2 : (c == '\\') = true
            · have hc : c = '\\' := eq_of_beq h2
              subst hc
              have he : escapeChar '\\' = ['\\', '\\'] := rfl
              rw [he, show (['\\', '\\'] : List Char) ++ (escapeString l2 ++ '"' :: rest)
                    = '\\' :: '\\' :: (escapeString l2 ++ '"' :: rest) from rfl,
                parseStringBody_escBackslash g _,
                ih g rest (by rw [he] at hf; simp at hf; omega)]
              rfl
            · rw [Bool.not_eq_true] at h2
              by_cases h3 : (c.toNat == 8) = true
              · have hc : c = Char.ofNat 8 :=
                  charEqOfToNat c (Char.ofNat 8) (by rw [eq_of_beq h3]; decide)
                have he : escapeChar c = ['\\', 'b'] := by
                  simp only [escapeChar, h1, h2, h3, Bool.false_eq_true, if_false, if_true]
                rw [he, show (['\\', 'b'] : List Char) ++ (escapeString l2 ++ '"' :: rest)
                      = '\\' :: 'b' :: (escapeString l2 ++ '"' :: rest) from rfl,
                  parseStringBody_escB g _,
                  ih g rest (by rw [he] at hf; simp at hf; omega)]
                rw [← hc]
                rfl
              · rw [Bool.not_eq_true] at h3
                by_cases h4 : (c.toNat == 9) = true
                · have hc : c = Char.ofNat 9 :=
                    charEqOfToNat c (Char.ofNat 9) (by rw [eq_of_beq h4]; decide)
                  have he : escapeChar c = ['\\', 't'] := by
                    simp only [escapeChar, h1, h2, h3, h4, Bool.false_eq_true, if_false,
                      if_true]
                  rw [he, show (['\\', 't'] : List Char) ++ (escapeString l2 ++ '"' :: rest)
                        = '\\' :: 't' :: (escapeString l2 ++ '"' :: rest) from rfl,
                    parseStringBody_escT g _,
                    ih g rest (by rw [he] at hf; simp at hf; omega)]
                  rw [← hc]
                  rfl
                · rw [Bool.not_eq_true] at h4
                  by_cases h5 : (c.toNat == 10) = true
                  · have hc : c = Char.ofNat 10 :=
                      charEqOfToNat c (Char.ofNat 10) (by rw [eq_of_beq h5]; decide)
                    have he : escapeChar c = ['\\', 'n'] := by
                      simp only [escapeChar, h1, h2, h3, h4, h5, Bool.false_eq_true,
                        if_false, if_true]
                    rw [he, show (['\\', 'n'] : List Char) ++ (escapeString l2 ++ '"' :: rest)
                          = '\\' :: 'n' :: (escapeString l2 ++ '"' :: rest) from rfl,
                      parseStringBody_escN g _,
                      ih g rest (by rw [he] at hf; simp at hf; omega)]
                    rw [← hc]
                    rfl
                  · rw [Bool.not_eq_true] at h5
                    by_cases h6 : (c.toNat == 12) = true
                    · have hc : c = Char.ofNat 12 :=
                        charEqOfToNat c (Char.ofNat 12) (by rw [eq_of_beq h6]; decide)
                      have he : escapeChar c = ['\\', 'f'] := by
                        simp only [escapeChar, h1, h2, h3, h4, h5, h6, Bool.false_eq_true,
                          if_false, if_true]
                      rw [he,
                        show (['\\', 'f'] : List Char) ++ (escapeString l2 ++ '"' :: rest)
                          = '\\' :: 'f' :: (escapeString l2 ++ '"' :: rest) from rfl,
                        parseStringBody_escF g _,
                        ih g rest (by rw [he] at hf; simp at hf; omega)]
                      rw [← hc]
                      rfl
                    · rw [Bool.not_eq_true] at h6
                      by_cases h7 : (c.toNat == 13) = true
                      · have hc : c = Char.ofNat 13 :=
                          charEqOfToNat c (Char.ofNat 13) (by rw [eq_of_beq h7]; decide)
                        have he : escapeChar c = ['\\', 'r'] := by
                          simp only [escapeChar, h1, h2, h3, h4, h5, h6, h7,
                            Bool.false_eq_true, if_false, if_true]
                        rw [he,
                          show (['\\', 'r'] : List Char) ++ (escapeString l2 ++ '"' :: rest)
                            = '\\' :: 'r' :: (escapeString l2 ++ '"' :: rest) from rfl,
                          parseStringBody_escR g _,
                          ih g rest (by rw [he] at hf; simp at hf; omega)]
                        rw [← hc]
                        rfl
                      · rw [Bool.not_eq_true] at h7
                        by_cases h8 : c.toNat < 32
                        · have he : escapeChar c = ['\\', 'u', '0', '0',
                              hexDigitLower (c.toNat / 16), hexDigitLower (c.toNat % 16)] := by
                            simp only [escapeChar, h1, h2, h3, h4, h5, h6, h7,
                              Bool.false_eq_true, if_false, h8, if_true]
                          rw [he,
                            show (['\\', 'u', '0', '0', hexDigitLower (c.toNat / 16),
                                hexDigitLower (c.toNat % 16)] : List Char)
                                ++ (escapeString l2 ++ '"' :: rest)
                              = '\\' :: 'u' :: '0' :: '0' :: hexDigitLower (c.toNat / 16) ::
                                hexDigitLower (c.toNat % 16) ::
                                (escapeString l2 ++ '"' :: rest) from rfl,
                            parseStringBody_escU g _ c.toNat h8,
                            ih g rest (by rw [he] at hf; simp at hf; omega)]
                          rw [Char.ofNat_toNat]
                          rfl
                        · have he : escapeChar c = [c] := by
                            simp only [escapeChar, h1, h2, h3, h4, h5, h6, h7,
                              Bool.false_eq_true, if_false, h8, if_true]
                          rw [he, show ([c] : List Char) ++ (escapeString l2 ++ '"' :: rest)
                                = c :: (escapeString l2 ++ '"' :: rest) from rfl,
                            parseStringBody_plain g c _ h1 h2 h8,
                            ih g rest (by rw [he] at hf; simp at hf; omega)]
                          rfl

/-! ## Claim C9: the value layer of the parser -/

/-- `skipWs` passes a non-whitespace head through. -/
theorem skipWs_cons (c : Char) (t : List Char) (h : isJsonWs c = false) :
    skipWs (c :: t) = c :: t := by
  simp only [skipWs, List.dropWhile_cons, h, Bool.false_eq_true, if_false]

/-- A decimal digit is not JSON whitespace. -/
theorem isDigitChar_not_ws (c : Char) (h : isDigitChar c = true) : isJsonWs c = false := by
  simp only [isDigitChar, Bool.and_eq_true, decide_eq_true_eq] at h
  rw [Bool.eq_false_iff]
  intro hw
  simp only [isJsonWs, Bool.or_eq_true, beq_iff_eq] at hw
  omega

/-- A decimal digit differs from any non-digit character. -/
theorem isDigitChar_ne (c : Char) (h : isDigitChar c = true) (d : Char)
    (hd : isDigitChar d = false) : (c == d) = false := by
  rw [Bool.eq_false_iff]
  intro hb
  rw [eq_of_beq hb, hd] at h
  exact Bool.noConfusion h

/-- The first character of a printed number: a minus sign or a digit. -/
theorem printNumber_head (n : JsonNumber) :
    ∃ c t, printNumber n = c :: t ∧ ((c == '-') = true ∨ isDigitChar c = true) := by
  by_cases hm : n.mantissa < 0
  · exact ⟨'-', printNumberBody n.mantissa.natAbs n.fracDigits,
      by rw [printNumber, if_pos hm]; rfl, Or.inl (by decide)⟩
  · obtain ⟨c, t, hct, hc⟩ := printNumberBody_head n.mantissa.natAbs n.fracDigits
    exact ⟨c, t, by rw [printNumber, if_neg hm, List.nil_append]; exact hct, Or.inr hc⟩

/-- The first character of any printed JSON value. -/
theorem printJson_head (o : Json) :
    ∃ c t, printJson o = c :: t ∧ isValueHead c = true := by
  cases o with
  | null => exact ⟨'n', _, rfl, by decide⟩
  | bool b =>
      cases b with
      | false => exact ⟨'f', _, rfl, by decide⟩
      | true => exact ⟨'t', _, rfl, by decide⟩
  | num n =>
      obtain ⟨c, t, hct, hc⟩ := printNumber_head n
      refine ⟨c, t, hct, ?_⟩
      simp only [isValueHead]
      rcases hc with h | h
      · simp [h]
      · simp [h]
  | str s => exact ⟨'"', _, rfl, by decide⟩
  | arr xs => exact ⟨'[', _, rfl, by decide⟩
  | obj fs => exact ⟨lbraceChar, _, rfl, by decide⟩

/-- A value head is not whitespace. -/
theorem valueHead_not_ws (c : Char) (h : isValueHead c = true) : isJsonWs c = false := by
  simp only [isValueHead, Bool.or_eq_true, beq_iff_eq] at h
  rcases h with (((((((rfl | rfl) | rfl) | rfl) | rfl) | rfl) | rfl) | h)
  · decide
  · decide
  · decide
  · decide
  · decide
  · decide
  · decide
  · exact isDigitChar_not_ws c h

/-- A value head is not a closing bracket. -/
theorem valueHead_ne_rbrack (c : Char) (h : isValueHead c = true) : (c == ']') = false := by
  simp only [isValueHead, Bool.or_eq_true, beq_iff_eq] at h
  rcases h with (((((((rfl | rfl) | rfl) | rfl) | rfl) | rfl) | rfl) | h)
  · decide
  · decide
  · decide
  · decide
  · decide
  · decide
  · decide
  · exact isDigitChar_ne c h ']' (by decide)

/-- A number head fails the keyword, string and bracket branch tests of
the value parser and passes the number test. -/
theorem numHead_branches (c : Char) (h : (c == '-') = true ∨ isDigitChar c = true) :
    (c == 'n') = false ∧ (c == 't') = false ∧ (c == 'f') = false ∧ (c == '"') = false ∧
      (c == '[') = false ∧ (c == lbraceChar) = false ∧ isJsonWs c = false ∧
      (c == '-' || isDigitChar c) = true := by
  rcases h with h | h
  · rw [eq_of_beq h]
    decide
  · exact ⟨isDigitChar_ne c h 'n' (by decide), isDigitChar_ne c h 't' (by decide),
      isDigitChar_ne c h 'f' (by decide), isDigitChar_ne c h '"' (by decide),
      isDigitChar_ne c h '[' (by decide), isDigitChar_ne c h lbraceChar (by decide),
      isDigitChar_not_ws c h, by simp [h]⟩

/-- Unfolding the value parser on a literal `null`. -/
theorem parseValue_nullStep (g : Nat) (T : List Char) :
    parseValue (g + 1) ('n' :: 'u' :: 'l' :: 'l' :: T) = some (.null, T) := rfl

/-- Unfolding the value parser on a literal `true`. -/
theorem parseValue_trueStep (g : Nat) (T : List Char) :
    parseValue (g + 1) ('t' :: 'r' :: 'u' :: 'e' :: T) = some (.bool true, T) := rfl

/-- Unfolding the value parser on a literal `false`. -/
theorem parseValue_falseStep (g : Nat) (T : List Char) :
    parseValue (g + 1) ('f' :: 'a' :: 'l' :: 's' :: 'e' :: T) = some (.bool false, T) := rfl

/-- Unfolding the value parser on a string opener. -/
theorem parseValue_strStep (g : Nat) (T : List Char) :
    parseValue (g + 1) ('"' :: T)
      = (parseStringBody (T.length + 1) T).map (fun p => (Json.str ⟨p.1⟩, p.2)) := rfl

/-- Unfolding the value parser on an array opener whose contents start
with a non-bracket value. -/
theorem parseValue_arrCons (g : Nat) (T : List Char) (c2 : Char) (r2 : List Char)
    (hT : skipWs T = c2 :: r2) (hne : (c2 == ']') = false) :
    parseValue (g + 1) ('[' :: T)
      = (parseElems g (c2 :: r2)).map (fun p => (Json.arr p.1, p.2)) := by
  have hstep : parseValue (g + 1) ('[' :: T)
      = (match skipWs T with
        | [] => none
        | c2 :: r2 =>
            if c2 == ']' then some (Json.arr .nil, r2)
            else (parseElems g (c2 :: r2)).map (fun p => (Json.arr p.1, p.2))) := rfl
  rw [hstep, hT]
  simp only [hne, Bool.false_eq_true, if_false]

/-- Unfolding the value parser on an object opener whose contents start
with a key string. -/
theorem parseValue_objCons (g : Nat) (T : List Char) (c2 : Char) (r2 : List Char)
    (hT : skipWs T = c2 :: r2) (hne : (c2 == rbraceChar) = false) :
    parseValue (g + 1) (lbraceChar :: T)
      = (parseFields g (c2 :: r2)).map (fun p => (Json.obj p.1, p.2)) := by
  have hstep : parseValue (g + 1) (lbraceChar :: T)
      = (match skipWs T with
        | [] => none
        | c2 :: r2 =>
            if c2 == rbraceChar then some (Json.obj .nil, r2)
            else (parseFields g (c2 :: r2)).map (fun p => (Json.obj p.1, p.2))) := rfl
  rw [hstep, hT]
  simp only [hne, Bool.false_eq_true, if_false]

/-- Unfolding the value parser on an empty array literal. -/
theorem parseValue_arrNil (g : Nat) (rest : List Char) :
    parseValue (g + 1) ('[' :: ']' :: rest) = some (.arr .nil, rest) := rfl

/-- Unfolding the value parser on an empty object literal. -/
theorem parseValue_objNil (g : Nat) (rest : List Char) :
    parseValue (g + 1) (lbraceChar :: rbraceChar :: rest) = some (.obj .nil, rest) := rfl

/-- Unfolding the value parser on a number head. -/
theorem parseValue_numStep (g : Nat) (c : Char) (T : List Char)
    (h : (c == '-') = true ∨ isDigitChar c = true) :
    parseValue (g + 1) (c :: T) = (parseNumber (c :: T)).map (fun p => (Json.num p.1, p.2)) := by
  obtain ⟨hn, ht, hf, hq, hb, ho, hws, hnum⟩ := numHead_branches c h
  simp only [parseValue, skipWs_cons c T hws]
  simp only [hn, ht, hf, hq, hb, ho, Bool.false_eq_true, if_false, hnum, if_true]

/-- The fuel measure is positive (values). -/
theorem one_le_jsize (o : Json) : 1 ≤ jsize o := by
  cases o <;> simp [jsize]

/-- The fuel measure is positive (array elements). -/
theorem one_le_jsizeL (xs : JsonList) : 1 ≤ jsizeL xs := by
  cases xs <;> simp [jsizeL]

/-- The fuel measure is positive (object fields). -/
theorem one_le_jsizeO (fs : JsonObj) : 1 ≤ jsizeO fs := by
  cases fs <;> simp [jsizeO]

mutual
/-- The printed length bounds the fuel measure (values). -/
theorem le_printJson_length : ∀ o : Json, jsize o ≤ (printJson o).length + 1
  | .null => by decide
  | .bool b => by cases b <;> decide
  | .num n => by
      simp only [jsize]
      omega
  | .str s => by
      simp only [jsize]
      omega
  | .arr xs => by
      have h := le_printElems_length xs
      simp only [jsize, printJson, List.length_cons, List.length_append,
        List.length_singleton]
      omega
  | .obj fs => by
      have h := le_printFields_length fs
      simp only [jsize, printJson, List.length_cons, List.length_append,
        List.length_singleton]
      omega
/-- The printed length bounds the fuel measure (array elements). -/
theorem le_printElems_length : ∀ xs : JsonList, jsizeL xs ≤ (printElems xs).length + 2
  | .nil => by decide
  | .cons x .nil => by
      have h := le_printJson_length x
      have e1 : jsizeL (JsonList.cons x JsonList.nil)
          = max (jsize x) (jsizeL JsonList.nil) + 1 := rfl
      have e2 : printElems (JsonList.cons x JsonList.nil) = printJson x := rfl
      have e3 : jsizeL JsonList.nil = 1 := rfl
      rw [e1, e2, e3]
      omega
  | .cons x (.cons y tl) => by
      have h1 := le_printJson_length x
      have h2 := le_printElems_length (JsonList.cons y tl)
      have e1 : jsizeL (JsonList.cons x (JsonList.cons y tl))
          = max (jsize x) (jsizeL (JsonList.cons y tl)) + 1 := rfl
      have e2 : printElems (JsonList.cons x (JsonList.cons y tl))
          = printJson x ++ ',' :: printElems (JsonList.cons y tl) := rfl
      rw [e1, e2, List.length_append, List.length_cons]
      omega
/-- The printed length bounds the fuel measure (object fields). -/
theorem le_printFields_length : ∀ fs : JsonObj, jsizeO fs ≤ (printFields fs).length + 2
  | .nil => by decide
  | .cons k v .nil => by
      have h := le_printJson_length v
      have e1 : jsizeO (JsonObj.cons k v JsonObj.nil)
          = max (jsize v) (jsizeO JsonObj.nil) + 1 := rfl
      have e2 : printFields (JsonObj.cons k v JsonObj.nil)
          = '"' :: (escapeString k.data ++ '"' :: ':' :: printJson v) := rfl
      have e3 : jsizeO JsonObj.nil = 1 := rfl
      rw [e1, e2, e3]
      simp only [List.length_cons, List.length_append]
      omega
  | .cons k v (.cons k2 v2 tl) => by
      have h1 := le_printJson_length v
      have h2 := le_printFields_length (JsonObj.cons k2 v2 tl)
      have e1 : jsizeO (JsonObj.cons k v (JsonObj.cons k2 v2 tl))
          = max (jsize v) (jsizeO (JsonObj.cons k2 v2 tl)) + 1 := rfl
      have e2 : printFields (JsonObj.cons k v (JsonObj.cons k2 v2 tl))
          = ('"' :: (escapeString k.data ++ '"' :: ':' :: printJson v)) ++
              ',' :: printFields (JsonObj.cons k2 v2 tl) := rfl
      rw [e1, e2]
      simp only [List.length_cons, List.length_append]
      omega
end

mutual
/-- Round trip of the value parser on a printed value followed by a
stop-headed (or empty) continuation. -/
theorem parseValue_print (o : Json) : ∀ (g : Nat) (rest : List Char),
    jsize o ≤ g → StopOk rest →
    parseValue g (printJson o ++ rest) = some (o, rest) := by
  intro g rest hg hstop
  obtain ⟨g2, rfl⟩ : ∃ g2, g = g2 + 1 := ⟨g - 1, by have := one_le_jsize o; omega⟩
  cases o with
  | null => exact parseValue_nullStep g2 rest
  | bool b =>
      cases b with
      | false => exact parseValue_falseStep g2 rest
      | true => exact parseValue_trueStep g2 rest
  | num n =>
      obtain ⟨c, t, hct, hhead⟩ := printNumber_head n
      have hsh : printJson (Json.num n) ++ rest = c :: (t ++ rest) := by
        rw [show printJson (Json.num n) = printNumber n from rfl, hct]
        rfl
      rw [hsh, parseValue_numStep g2 c (t ++ rest) hhead,
        show c :: (t ++ rest) = printNumber n ++ rest from by rw [hct]; rfl,
        parseNumber_print n rest hstop]
      rfl
  | str s =>
      have hsh : printJson (Json.str s) ++ rest
          = '"' :: (escapeString s.data ++ '"' :: rest) := by
        rw [show printJson (Json.str s) = '"' :: (escapeString s.data ++ ['"']) from rfl]
        simp
      rw [hsh, parseValue_strStep g2 (escapeString s.data ++ '"' :: rest),
        parseStringBody_print s.data ((escapeString s.data ++ '"' :: rest).length + 1)
          rest (by simp only [List.length_append, List.length_cons]; omega)]
      rfl
  | arr xs =>
      cases xs with
      | nil => exact parseValue_arrNil g2 rest
      | cons x tl =>
          obtain ⟨c, t, hct, hhead⟩ := printJson_head x
          obtain ⟨T2, hT2⟩ :
              ∃ T2, printElems (JsonList.cons x tl) ++ ']' :: rest = c :: T2 := by
            cases tl with
            | nil =>
                exact ⟨t ++ ']' :: rest, by
                  rw [show printElems (JsonList.cons x JsonList.nil) = printJson x from rfl,
                    hct]
                  rfl⟩
            | cons y tl2 =>
                exact ⟨t ++ (',' :: printElems (JsonList.cons y tl2) ++ ']' :: rest), by
                  rw [show printElems (JsonList.cons x (JsonList.cons y tl2))
                      = printJson x ++ ',' :: printElems (JsonList.cons y tl2) from rfl,
                    hct]
                  simp⟩
          have hsh : printJson (Json.arr (JsonList.cons x tl)) ++ rest
              = '[' :: (printElems (JsonList.cons x tl) ++ ']' :: rest) := by
            rw [show printJson (Json.arr (JsonList.cons x tl))
                = '[' :: (printElems (JsonList.cons x tl) ++ [']']) from rfl]
            simp
          have hsk : skipWs (printElems (JsonList.cons x tl) ++ ']' :: rest) = c :: T2 := by
            rw [hT2]
            exact skipWs_cons c T2 (valueHead_not_ws c hhead)
          have hsz : jsizeL (JsonList.cons x tl) ≤ g2 := by
            have h := hg
            rw [show jsize (Json.arr (JsonList.cons x tl))
                = jsizeL (JsonList.cons x tl) + 1 from rfl] at h
            omega
          rw [hsh, parseValue_arrCons g2 _ c T2 hsk (valueHead_ne_rbrack c hhead), ← hT2,
            parseElems_print (JsonList.cons x tl) g2 rest
              (fun hcontra => JsonList.noConfusion hcontra) hsz]
          rfl
  | obj fs =>
      cases fs with
      | nil => exact parseValue_objNil g2 rest
      | cons k v tl =>
          obtain ⟨T2, hT2⟩ :
              ∃ T2, printFields (JsonObj.cons k v tl) ++ rbraceChar :: rest = '"' :: T2 := by
            cases tl with
            | nil =>
                exact ⟨_, by
                  rw [show printFields (JsonObj.cons k v JsonObj.nil)
                      = '"' :: (escapeString k.data ++ '"' :: ':' :: printJson v) from rfl]
                  rfl⟩
            | cons k2 v2 tl2 =>
                exact ⟨_, by
                  rw [show printFields (JsonObj.cons k v (JsonObj.cons k2 v2 tl2))
                      = ('"' :: (escapeString k.data ++ '"' :: ':' :: printJson v)) ++
                        ',' :: printFields (JsonObj.cons k2 v2 tl2) from rfl]
                  rfl⟩
          have hsh : printJson (Json.obj (JsonObj.cons k v tl)) ++ rest
              = lbraceChar :: (printFields (JsonObj.cons k v tl) ++ rbraceChar :: rest) := by
            rw [show printJson (Json.obj (JsonObj.cons k v tl))
                = lbraceChar :: (printFields (JsonObj.cons k v tl) ++ [rbraceChar]) from rfl]
            simp
          have hsk : skipWs (printFields (JsonObj.cons k v tl) ++ rbraceChar :: rest)
              = '"' :: T2 := by
            rw [hT2]
            exact skipWs_cons '"' T2 (by decide)
          have hsz : jsizeO (JsonObj.cons k v tl) ≤ g2 := by
            have h := hg
            rw [show jsize (Json.obj (JsonObj.cons k v tl))
                = jsizeO (JsonObj.cons k v tl) + 1 from rfl] at h
            omega
          rw [hsh, parseValue_objCons g2 _ '"' T2 hsk (by decide), ← hT2,
            parseFields_print (JsonObj.cons k v tl) g2 rest
              (fun hcontra => JsonObj.noConfusion hcontra) hsz]
          rfl
/-- Round trip of the element parser on a printed non-empty element list
followed by the closing bracket. -/
theorem parseElems_print (xs : JsonList) : ∀ (g : Nat) (rest : List Char),
    xs ≠ JsonList.nil → jsizeL xs ≤ g →
    parseElems g (printElems xs ++ ']' :: rest) = some (xs, rest) := by
  intro g rest hne hg
  obtain ⟨g2, rfl⟩ : ∃ g2, g = g2 + 1 := ⟨g - 1, by have := one_le_jsizeL xs; omega⟩
  cases xs with
  | nil => exact absurd rfl hne
  | cons x tl =>
      have hszx : jsize x ≤ g2 := by
        have h := hg
        rw [show jsizeL (JsonList.cons x tl) = max (jsize x) (jsizeL tl) + 1 from rfl] at h
        omega
      cases tl with
      | nil =>
          have hl : printElems (JsonList.cons x JsonList.nil) ++ ']' :: rest
              = printJson x ++ ']' :: rest := rfl
          simp only [parseElems]
          rw [hl, parseValue_print x g2 (']' :: rest) hszx
            (Or.inr ⟨']', rest, rfl, by decide⟩)]
          rfl
      | cons y tl2 =>
          have hsztl : jsizeL (JsonList.cons y tl2) ≤ g2 := by
            have h := hg
            rw [show jsizeL (JsonList.cons x (JsonList.cons y tl2))
                = max (jsize x) (jsizeL (JsonList.cons y tl2)) + 1 from rfl] at h
            omega
          have hl : printElems (JsonList.cons x (JsonList.cons y tl2)) ++ ']' :: rest
              = printJson x ++ ',' :: (printElems (JsonList.cons y tl2) ++ ']' :: rest) := by
            rw [show printElems (JsonList.cons x (JsonList.cons y tl2))
                = printJson x ++ ',' :: printElems (JsonList.cons y tl2) from rfl]
            simp
          have hval := parseValue_print x g2
            (',' :: (printElems (JsonList.cons y tl2) ++ ']' :: rest)) hszx
            (Or.inr ⟨',', _, rfl, by decide⟩)
          simp only [parseElems]
          rw [hl]
          simp only [hval,
            skipWs_cons ',' (printElems (JsonList.cons y tl2) ++ ']' :: rest) (by decide),
            show ((',' : Char) == ',') = true from rfl, if_true]
          rw [parseElems_print (JsonList.cons y tl2) g2 rest
            (fun hcontra => JsonList.noConfusion hcontra) hsztl]
          rfl
/-- Round trip of the field parser on a printed non-empty field list
followed by the closing brace. -/
theorem parseFields_print (fs : JsonObj) : ∀ (g : Nat) (rest : List Char),
    fs ≠ JsonObj.nil → jsizeO fs ≤ g →
    parseFields g (printFields fs ++ rbraceChar :: rest) = some (fs, rest) := by
  intro g rest hne hg
  obtain ⟨g2, rfl⟩ : ∃ g2, g = g2 + 1 := ⟨g - 1, by have := one_le_jsizeO fs; omega⟩
  cases fs with
  | nil => exact absurd rfl hne
  | cons k v tl =>
      have hszv : jsize v ≤ g2 := by
        have h := hg
        rw [show jsizeO (JsonObj.cons k v tl) = max (jsize v) (jsizeO tl) + 1 from rfl] at h
        omega
      cases tl with
      | nil =>
          have hl : printFields (JsonObj.cons k v JsonObj.nil) ++ rbraceChar :: rest
              = '"' :: (escapeString k.data ++ '"' ::
                  (':' :: (printJson v ++ rbraceChar :: rest))) := by
            rw [show printFields (JsonObj.cons k v JsonObj.nil)
                = '"' :: (escapeString k.data ++ '"' :: ':' :: printJson v) from rfl]
            simp
          have hkey := parseStringBody_print k.data
            ((escapeString k.data ++ '"' ::
              (':' :: (printJson v ++ rbraceChar :: rest))).length + 1)
            (':' :: (printJson v ++ rbraceChar :: rest))
            (by simp only [List.length_append, List.length_cons]; omega)
          have hval := parseValue_print v g2 (rbraceChar :: rest) hszv
            (Or.inr ⟨rbraceChar, rest, rfl, by decide⟩)
          simp only [parseFields]
          rw [hl]
          simp only [hkey, hval,
            skipWs_cons ':' (printJson v ++ rbraceChar :: rest) (by decide),
            skipWs_cons rbraceChar rest (by decide),
            show (('"' : Char) == '"') = true from rfl,
            show ((':' : Char) == ':') = true from rfl,
            show (rbraceChar == ',') = false from by decide,
            show (rbraceChar == rbraceChar) = true from by decide,
            Bool.false_eq_true, if_true, if_false]
      | cons k2 v2 tl2 =>
          have hsztl : jsizeO (JsonObj.cons k2 v2 tl2) ≤ g2 := by
            have h := hg
            rw [show jsizeO (JsonObj.cons k v (JsonObj.cons k2 v2 tl2))
                = max (jsize v) (jsizeO (JsonObj.cons k2 v2 tl2)) + 1 from rfl] at h
            omega
          have hl : printFields (JsonObj.cons k v (JsonObj.cons k2 v2 tl2)) ++
                rbraceChar :: rest
              = '"' :: (escapeString k.data ++ '"' :: (':' :: (printJson v ++
                  ',' :: (printFields (JsonObj.cons k2 v2 tl2) ++ rbraceChar :: rest)))) := by
            rw [show printFields (JsonObj.cons k v (JsonObj.cons k2 v2 tl2))
                = ('"' :: (escapeString k.data ++ '"' :: ':' :: printJson v)) ++
                  ',' :: printFields (JsonObj.cons k2 v2 tl2) from rfl]
            simp
          obtain ⟨T5, hT5⟩ : ∃ T5,
              printFields (JsonObj.cons k2 v2 tl2) ++ rbraceChar :: rest = '"' :: T5 := by
            cases tl2 with
            | nil =>
                exact ⟨_, by
                  rw [show printFields (JsonObj.cons k2 v2 JsonObj.nil)
                      = '"' :: (escapeString k2.data ++ '"' :: ':' :: printJson v2)
                      from rfl]
                  rfl⟩
            | cons k3 v3 tl3 =>
                exact ⟨_, by
                  rw [show printFields (JsonObj.cons k2 v2 (JsonObj.cons k3 v3 tl3))
                      = ('"' :: (escapeString k2.data ++ '"' :: ':' :: printJson v2)) ++
                        ',' :: printFields (JsonObj.cons k3 v3 tl3) from rfl]
                  rfl⟩
          have hkey := parseStringBody_print k.data
            ((escapeString k.data ++ '"' :: (':' :: (printJson v ++
              ',' :: (printFields (JsonObj.cons k2 v2 tl2) ++ rbraceChar :: rest)))).length + 1)
            (':' :: (printJson v ++
              ',' :: (printFields (JsonObj.cons k2 v2 tl2) ++ rbraceChar :: rest)))
            (by simp only [List.length_append, List.length_cons]; omega)
          have hval := parseValue_print v g2
            (',' :: (printFields (JsonObj.cons k2 v2 tl2) ++ rbraceChar :: rest)) hszv
            (Or.inr ⟨',', _, rfl, by decide⟩)
          have hskq : skipWs (printFields (JsonObj.cons k2 v2 tl2) ++ rbraceChar :: rest)
              = '"' :: T5 := by
            rw [hT5]
            exact skipWs_cons '"' T5 (by decide)
          simp only [parseFields]
          rw [hl]
          simp only [hkey, hval, hskq,
            skipWs_cons ':' (printJson v ++
              ',' :: (printFields (JsonObj.cons k2 v2 tl2) ++ rbraceChar :: rest)) (by decide),
            skipWs_cons ','
              (printFields (JsonObj.cons k2 v2 tl2) ++ rbraceChar :: rest) (by decide),
            show (('"' : Char) == '"') = true from rfl,
            show ((':' : Char) == ':') = true from rfl,
            show ((',' : Char) == ',') = true from rfl,
            show ((',' : Char) == rbraceChar) = false from by decide,
            Bool.false_eq_true, if_true, if_false]
          rw [← hT5, parseFields_print (JsonObj.cons k2 v2 tl2) g2 rest
            (fun hcontra => JsonObj.noConfusion hcontra) hsztl]
          rfl
end

/-- Full round trip: parsing a printed document returns the document. -/
theorem jsonParse_print (o : Json) : jsonParse (printJsonStr o) = some o := by
  have h := parseValue_print o ((printJson o).length + 1) []
    (by have := le_printJson_length o; omega) (Or.inl rfl)
  rw [List.append_nil] at h
  have hd : (printJsonStr o).data = printJson o := rfl
  simp only [jsonParse, hd]
  rw [h]
  rfl

/-- **C9**: the credential round trip.  `decrypt(encrypt(s, key), key)`
recovers every plaintext under every key and salt, and
`decryptObject(encryptObject(data, key), key)` returns the original
object for every JSON value: the cipher layer restores the printed text
exactly and `JSON.parse` inverts `JSON.stringify` on it. -/
theorem decrypt_encrypt_roundtrip :
    (∀ (s key : String) (salt : Nat), decrypt (encrypt s key salt) key = s) ∧
    (∀ (o : Json) (key : String) (salt : Nat),
      decryptObject (encryptObject o key salt) key = Except.ok o) := by
  refine ⟨decrypt_encrypt, ?_⟩
  intro o key salt
  simp only [decryptObject, encryptObject, decrypt_encrypt, jsonParse_print]

end InvoiceAuto
